import Mathlib

/-!
Verification of the message codec of the blockchain-broadcaster repository
(`src/messages.rs`, with the bootstrap routine of `src/main.rs`).

Strings are modelled as lists of characters.  Rust's `str::split` on a single
character coincides with `List.splitOn`; `str::replace` of one character is a
`map`.  The external `base64` crate and the standard-library `f64` parsing and
printing functions are modelled explicitly below; everything else is translated
directly from the Rust source.
-/

namespace RChain

/-- Strings of the Rust program, as lists of characters. -/
abbrev Str := List Char

/-- Character list of a Lean string literal. -/
def str (s : String) : Str := s.data

/-- Rust `str::split(c)`.  `List.splitOn` has the same semantics: splitting the
empty string gives one empty part, and a trailing separator gives a trailing
empty part. -/
def splitChar (c : Char) (s : Str) : List Str := s.splitOn c

/-- Rust `str::replace(c, d)` for single characters. -/
def replaceChar (c d : Char) (s : Str) : Str := s.map fun x => if x = c then d else x

/-- The decimal digit characters. -/
def digitCh : Nat → Char
  | 0 => '0' | 1 => '1' | 2 => '2' | 3 => '3' | 4 => '4'
  | 5 => '5' | 6 => '6' | 7 => '7' | 8 => '8' | _ => '9'

/-- Numeric value of a digit character. -/
def chVal (c : Char) : Nat := c.toNat - 48

/-- Is the character a decimal digit? -/
def isDigitCh (c : Char) : Bool := decide ('0' ≤ c) && decide (c ≤ '9')

/-- Little-endian base-10 digits of `n`, with explicit fuel (any `fuel ≥ n`
gives the digits). -/
def natDigitsAux : Nat → Nat → List Nat
  | 0, _ => []
  | fuel+1, n => if n = 0 then [] else n % 10 :: natDigitsAux fuel (n / 10)

/-- Little-endian base-10 digits of `n` (empty for `0`). -/
def natDigitsLE (n : Nat) : List Nat := natDigitsAux n n

/-- Decimal rendering of a natural number, as Rust renders `u64` and the
integral part of floats. -/
def natToStr (n : Nat) : Str :=
  if n = 0 then ['0'] else ((natDigitsLE n).map digitCh).reverse

/-- Value of a big-endian digit string. -/
def digitsValBE (s : Str) : Nat := s.foldl (fun a c => 10 * a + chVal c) 0

/-- Rust `u64::from_str`: an optional `+` sign, then one or more digits whose
value fits in 64 bits. -/
def parseU64 (s : Str) : Option Nat :=
  let t := if s.head? = some '+' then s.tail else s
  if t = [] then none
  else if t.all isDigitCh then
    if digitsValBE t < 2^64 then some (digitsValBE t) else none
  else none

/-- Value of one character of the standard base64 alphabet.  Models the
alphabet of the `base64` crate used by the source. -/
def b64Val (c : Char) : Option Nat :=
  if 'A' ≤ c ∧ c ≤ 'Z' then some (c.toNat - 65)
  else if 'a' ≤ c ∧ c ≤ 'z' then some (c.toNat - 71)
  else if '0' ≤ c ∧ c ≤ '9' then some (c.toNat + 4)
  else if c = '+' then some 62
  else if c = '/' then some 63
  else none

/-- An alphabet character or the padding character. -/
def b64CharOrPad (c : Char) : Bool := (b64Val c).isSome || c = '='

/-- Success predicate of `base64::decode` (standard configuration): alphabet
characters followed by at most two `=` padding characters, a data length that
is not `1 mod 4`, padding only completing a four-character block, and no
nonzero unused trailing bits in the last data character. -/
def base64Ok (s : Str) : Bool :=
  let pads := (s.reverse.takeWhile (· = '=')).length
  let body := s.take (s.length - pads)
  s.all b64CharOrPad &&
  decide (pads ≤ 2) &&
  body.all (fun c => (b64Val c).isSome) &&
  (decide (pads = 0) || decide (s.length % 4 = 0)) &&
  decide (body.length % 4 ≠ 1) &&
  (match body.length % 4, body.getLast? with
   | 2, some c => decide ((b64Val c).getD 0 % 16 = 0)
   | 3, some c => decide ((b64Val c).getD 0 % 4 = 0)
   | _, _ => true)

/-- Model of Rust `f64` as the codec observes it: NaN, signed infinities, and
finite values `m * 2^e` kept canonical (`m` odd, or `m = e = 0` for zero).
The sign of a floating-point zero is not modelled: the codec rejects every
zero amount before it could observe the sign. -/
inductive F64 where
  | nan : F64
  | inf : Bool → F64
  | finite : Int → Int → F64
deriving DecidableEq, Repr

/-- The largest finite `f64`, `f64::MAX = (2^53 - 1) * 2^971`. -/
def f64MAX : F64 := .finite (2^53 - 1) 971

/-- `a * 2^(e+1074) ≤ maxScaled` states that `a * 2^e` is at most `f64::MAX`. -/
def maxScaled : Nat := (2^53 - 1) * 2^2045

/-- Canonicity and range test for a finite value `± a * 2^e` with `a > 0`. -/
def mkFinOk (a : Nat) (e : Int) : Bool :=
  decide (a % 2 = 1) && decide (a < 2^53) && decide (-1074 ≤ e) &&
  decide (a * 2^(e + 1074).toNat ≤ maxScaled)

/-- Well-formed values of the `F64` model. -/
def wfF64 : F64 → Bool
  | .nan => true
  | .inf _ => true
  | .finite m e => (decide (m = 0) && decide (e = 0)) || mkFinOk m.natAbs e

/-- Odd part and 2-adic valuation, with explicit fuel (`fuel ≥ n` suffices). -/
def oddPartAux : Nat → Nat → Nat × Nat
  | 0, n => (n, 0)
  | fuel+1, n =>
    if n = 0 then (0, 0)
    else if n % 2 = 0 then
      let p := oddPartAux fuel (n / 2)
      (p.1, p.2 + 1)
    else (n, 0)

/-- `oddPart n = (m, v)` with `n = m * 2^v` and `m` odd for `n ≠ 0`. -/
def oddPart (n : Nat) : Nat × Nat := oddPartAux n n

/-- Sign as an integer. -/
def sgnInt (neg : Bool) : Int := if neg then -1 else 1

/-- Conversion of `± n / 10^k` (`n ≠ 0`) to binary64 by rounding.  Only
reached for decimals that are not exactly representable or not in range; the
behaviour at half-ulp and overflow boundaries simplifies the library's
round-to-nearest-even. -/
def roundDec (neg : Bool) (n k : Nat) : F64 :=
  let N := n * 2^1074 / 10^k
  if maxScaled < N then .inf neg
  else if N = 0 then .finite 0 0
  else
    let b := N.log2
    if b ≤ 52 then
      let p := oddPart N
      .finite (sgnInt neg * p.1) ((p.2 : Int) - 1074)
    else
      let sh := b - 52
      let M := (N + 2^(sh - 1)) / 2^sh
      let p := oddPart M
      if mkFinOk p.1 ((p.2 : Int) + sh - 1074) then
        .finite (sgnInt neg * p.1) ((p.2 : Int) + sh - 1074)
      else .inf neg

/-- Value of the decimal `± n * 10^t` as a binary64: exactly when the value is
representable, otherwise by rounding. -/
def decToF64 (neg : Bool) (n : Nat) (t : Int) : F64 :=
  if n = 0 then .finite 0 0
  else if 0 ≤ t then
    let p := oddPart (n * 5^t.toNat * 2^t.toNat)
    if mkFinOk p.1 p.2 then .finite (sgnInt neg * p.1) p.2
    else roundDec neg (n * 5^t.toNat * 2^t.toNat) 0
  else
    let k := (-t).toNat
    if n % 5^k = 0 then
      let p := oddPart (n / 5^k)
      if mkFinOk p.1 ((p.2 : Int) - k) then .finite (sgnInt neg * p.1) ((p.2 : Int) - k)
      else roundDec neg n k
    else roundDec neg n k

/-- Rust `f64::from_str`: an optional sign, then a case-insensitive special
value (`inf`, `infinity`, `nan`) or a decimal mantissa with an optional
fraction and exponent. -/
def parseF64 (s : Str) : Option F64 :=
  let neg := decide (s.head? = some '-')
  let t := if s.head? = some '-' ∨ s.head? = some '+' then s.tail else s
  let low := t.map Char.toLower
  if low = str "inf" ∨ low = str "infinity" then some (.inf neg)
  else if low = str "nan" then some .nan
  else
    let I := t.takeWhile isDigitCh
    let r1 := t.dropWhile isDigitCh
    let F := if r1.head? = some '.' then r1.tail.takeWhile isDigitCh else []
    let r2 := if r1.head? = some '.' then r1.tail.dropWhile isDigitCh else r1
    if I = [] ∧ F = [] then none
    else if r2 = [] then some (decToF64 neg (digitsValBE (I ++ F)) (-(F.length : Int)))
    else if r2.head? = some 'e' ∨ r2.head? = some 'E' then
      let xneg := decide (r2.tail.head? = some '-')
      let xs := if r2.tail.head? = some '-' ∨ r2.tail.head? = some '+' then r2.tail.tail
                else r2.tail
      if xs = [] then none
      else if xs.all isDigitCh then
        some (decToF64 neg (digitsValBE (I ++ F))
          ((if xneg then -(digitsValBE xs : Int) else (digitsValBE xs : Int)) -
            (F.length : Int)))
      else none
    else none

/-- Exact decimal rendering of the positive finite value `a * 2^e` (`a > 0`). -/
def printPosFin (a : Nat) (e : Int) : Str :=
  if 0 ≤ e then natToStr (a * 2^e.toNat)
  else
    let k := (-e).toNat
    let ds := natToStr (a * 5^k)
    if k < ds.length then ds.take (ds.length - k) ++ '.' :: ds.drop (ds.length - k)
    else '0' :: '.' :: (List.replicate (k - ds.length) '0' ++ ds)

/-- Rust `Display` for `f64`.  Finite values are printed as their exact plain
decimal expansion; the Rust library prints the shortest plain decimal that
parses back to the same value.  Both are sign-then-digits forms of the same
value that re-parse exactly, and they agree on every integral value that the
source renders. -/
def printF64 : F64 → Str
  | .nan => str "NaN"
  | .inf false => str "inf"
  | .inf true => str "-inf"
  | .finite m e =>
    if m = 0 then ['0']
    else (if m < 0 then ['-'] else []) ++ printPosFin m.natAbs e

/-- IEEE-754 `<=` on the model: false on NaN, infinities ordered around the
finite values, finite values compared by magnitude. -/
def leF64 : F64 → F64 → Bool
  | .nan, _ => false
  | _, .nan => false
  | .inf true, _ => true
  | _, .inf false => true
  | .inf false, _ => false
  | _, .inf true => false
  | .finite m e, .finite n f =>
    let g := min e f
    decide (m * 2^(e - g).toNat ≤ n * 2^(f - g).toNat)

/-- Result of a Rust decoder: `none` models a panic (a failed `unwrap`),
`some (.error e)` the `Err` case, `some (.ok a)` the `Ok` case. -/
abbrev Dec (α : Type) := Option (Except Str α)

/-- Equality of `Except` values is decidable when it is on both sides. -/
instance {ε α : Type} [DecidableEq ε] [DecidableEq α] : DecidableEq (Except ε α) :=
  fun x y =>
    match x, y with
    | .error e, .error f =>
      if h : e = f then .isTrue (by rw [h]) else .isFalse (fun hh => h (Except.error.inj hh))
    | .error _, .ok _ => .isFalse (fun hh => Except.noConfusion hh)
    | .ok _, .error _ => .isFalse (fun hh => Except.noConfusion hh)
    | .ok a, .ok b =>
      if h : a = b then .isTrue (by rw [h]) else .isFalse (fun hh => h (Except.ok.inj hh))

/-- `struct Move` of `src/messages.rs`. -/
structure Move where
  from_ : Str
  amount : F64
deriving DecidableEq, Repr

/-- `impl FromStr for Move`. -/
def Move.fromStr (s : Str) : Dec Move :=
  let parts := splitChar ',' s
  if parts.length ≠ 2 then some (.error (str "Move has more than two parts"))
  else
    match parts.get? 0 with
    | none => none
    | some f =>
      if base64Ok f then
        if f.length ≠ 116 then
          some (.error (str "Recipient public key (" ++ f ++ str ") is an invalid key"))
        else
          match parts.get? 1 with
          | none => none
          | some amt =>
            match parseF64 amt with
            | none => some (.error (str "Amount is not a number"))
            | some a =>
              if leF64 a (.finite 0 0) then some (.error (str "Amount must be positive"))
              else if a = .inf false then some (.error (str "Amount is too big"))
              else some (.ok { from_ := f, amount := a })
      else some (.error (str "Recipient public key (" ++ f ++ str ") is not base64"))

/-- `impl Display for Move`: positive infinity is replaced by `f64::MAX`
before rendering. -/
def Move.toStr (m : Move) : Str :=
  let a := if m.amount = .inf false then f64MAX else m.amount
  m.from_ ++ ',' :: printF64 a

/-- `struct Transaction`. -/
structure Transaction where
  serial : Nat
  unique_string : Str
  sig : Str
  sender : Str
  moves : List Move
deriving DecidableEq, Repr

/-- `struct NewTransaction`. -/
structure NewTransaction where
  unique_string : Str
  sig : Str
  sender : Str
  moves : List Move
deriving DecidableEq, Repr

/-- The source's write-each-element loop: every element is written, with the
separator after each element except the last. -/
def sepConcat (sep : Str) : List Str → Str
  | [] => []
  | [x] => x
  | x :: y :: xs => x ++ sep ++ sepConcat sep (y :: xs)

/-- `Transaction::help_fmt`: the header fields each followed by the
separator, then the moves separated by it. -/
def Transaction.helpFmt (t : Transaction) (sep : Str) : Str :=
  natToStr t.serial ++ sep ++ str "transaction" ++ sep ++ t.unique_string ++ sep ++
    t.sig ++ sep ++ t.sender ++ sep ++ sepConcat sep (t.moves.map Move.toStr)

/-- `impl Display for Transaction`. -/
def Transaction.toStr (t : Transaction) : Str := t.helpFmt [':']

/-- `impl Display for NewTransaction`. -/
def NewTransaction.toStr (t : NewTransaction) : Str :=
  str "transaction:" ++ t.unique_string ++ ':' :: t.sig ++ ':' :: t.sender ++ ':' ::
    sepConcat [':'] (t.moves.map Move.toStr)

/-- `.iter().map(|x| x.parse::<Move>()).collect::<Result<Vec<Move>, _>>()`. -/
def collectMoves : List Str → Dec (List Move)
  | [] => some (.ok [])
  | x :: xs =>
    match Move.fromStr x with
    | none => none
    | some (.error e) => some (.error e)
    | some (.ok m) =>
      match collectMoves xs with
      | none => none
      | some (.error e) => some (.error e)
      | some (.ok ms) => some (.ok (m :: ms))

/-- `impl FromStr for Transaction`. -/
def Transaction.fromStr (s : Str) : Dec Transaction :=
  let parts := splitChar ':' s
  if parts.length < 5 then some (.error (str "Transaction has less than five parts"))
  else
    match parts.get? 0 with
    | none => none
    | some serialS =>
      match parseU64 serialS with
      | none => some (.error (str "Serial is not a number"))
      | some serial =>
        match parts.get? 1 with
        | none => none
        | some tag =>
          if tag ≠ str "transaction" then
            some (.error (str "Second part is not transaction"))
          else
            match parts.get? 2 with
            | none => none
            | some u =>
              if base64Ok u then
                if u = [] then some (.error (str "Unique string is too short"))
                else
                  match parts.get? 3 with
                  | none => none
                  | some g =>
                    if base64Ok g then
                      if g.length ≠ 88 then
                        some (.error (str "Signature has an invalid length"))
                      else
                        match parts.get? 4 with
                        | none => none
                        | some snd =>
                          if base64Ok snd then
                            if snd.length ≠ 116 then
                              some (.error (str "Sender public key (" ++ snd ++
                                str ") is an invalid key"))
                            else
                              if 5 ≤ parts.length then
                                match collectMoves (parts.drop 5) with
                                | none => none
                                | some (.error e) => some (.error e)
                                | some (.ok moves) =>
                                  some (.ok { serial := serial, unique_string := u,
                                              sig := g, sender := snd, moves := moves })
                              else none
                          else some (.error (str "Sender public key (" ++ snd ++
                            str ") is not base64"))
                    else some (.error (str "Signature is not base64"))
              else some (.error (str "Unique string is not base64"))

/-- `impl FromStr for NewTransaction`. -/
def NewTransaction.fromStr (s : Str) : Dec NewTransaction :=
  let parts := splitChar ':' s
  if parts.length < 4 then some (.error (str "Transaction has less than four parts"))
  else
    match parts.get? 0 with
    | none => none
    | some tag =>
      if tag ≠ str "transaction" then
        some (.error (str "First part is not transaction"))
      else
        match parts.get? 1 with
        | none => none
        | some u =>
          if base64Ok u then
            if u = [] then some (.error (str "Unique string is too short"))
            else
              match parts.get? 2 with
              | none => none
              | some g =>
                if base64Ok g then
                  if g.length ≠ 88 then
                    some (.error (str "Signature has an invalid length"))
                  else
                    match parts.get? 3 with
                    | none => none
                    | some snd =>
                      if base64Ok snd then
                        if snd.length ≠ 116 then
                          some (.error (str "Sender public key (" ++ snd ++
                            str ") is an invalid key"))
                        else
                          if 4 ≤ parts.length then
                            match collectMoves (parts.drop 4) with
                            | none => none
                            | some (.error e) => some (.error e)
                            | some (.ok moves) =>
                              some (.ok { unique_string := u, sig := g,
                                          sender := snd, moves := moves })
                          else none
                      else some (.error (str "Sender public key (" ++ snd ++
                        str ") is not base64"))
                else some (.error (str "Signature is not base64"))
          else some (.error (str "Unique string is not base64"))

/-- `struct NewBlock`. -/
structure NewBlock where
  transactions : List Transaction
  nonce : F64
  miner_account : Str
deriving DecidableEq, Repr

/-- `struct Block`. -/
structure Block where
  serial : Nat
  transactions : List Transaction
  nonce : F64
  miner_account : Str
deriving DecidableEq, Repr

/-- `NewBlock::genesis()`: no transactions, nonce `1337.0`, and the fixed
116-character bootstrap account. -/
def NewBlock.genesis : NewBlock :=
  { transactions := []
    nonce := .finite 1337 0
    miner_account :=
      str "AAAAB3NzaC1yc2EAAAADAQABAAAAQQDbXz4rfbrRrXYQJbwuC" ++
      str "kIyIsccHRpxhxqxgKeneVF4eUXof6e2nLvdXkGA0Y6uBAQ6N7qKxasVTR/2s1N2OBWF" }

/-- `.iter().map(|x| x.replace(';', ":").parse::<Transaction>()).collect()`. -/
def collectTxs : List Str → Dec (List Transaction)
  | [] => some (.ok [])
  | x :: xs =>
    match Transaction.fromStr (replaceChar ';' ':' x) with
    | none => none
    | some (.error e) => some (.error e)
    | some (.ok t) =>
      match collectTxs xs with
      | none => none
      | some (.error e) => some (.error e)
      | some (.ok ts) => some (.ok (t :: ts))

/-- `impl FromStr for Block`. -/
def Block.fromStr (s : Str) : Dec Block :=
  let parts := splitChar ':' s
  if parts.length < 6 then some (.error (str "Block has less than six parts"))
  else
    match parts.get? 0 with
    | none => none
    | some serialS =>
      match parseU64 serialS with
      | none => some (.error (str "Serial is not a number"))
      | some serial =>
        match parts.get? 1 with
        | none => none
        | some tag =>
          if tag ≠ str "block" then some (.error (str "Second part is not block"))
          else
            match parts.get? 2 with
            | none => none
            | some nonceS =>
              match parseF64 nonceS with
              | none => some (.error (str "Nonce is not a number"))
              | some nonce =>
                match parts.get? 3 with
                | none => none
                | some acct =>
                  if base64Ok acct then
                    if acct.length ≠ 116 then
                      some (.error (str "Miner account is an invalid key"))
                    else
                      if 4 ≤ parts.length then
                        match collectTxs (parts.drop 4) with
                        | none => none
                        | some (.error e) => some (.error e)
                        | some (.ok transactions) =>
                          some (.ok { serial := serial, transactions := transactions,
                                      nonce := nonce, miner_account := acct })
                      else none
                  else some (.error (str "Miner account is not base64"))

/-- `impl FromStr for NewBlock`.  The part-count error message is the
source's own (misstated) wording. -/
def NewBlock.fromStr (s : Str) : Dec NewBlock :=
  let parts := splitChar ':' s
  if parts.length < 4 then some (.error (str "Block has less than five parts"))
  else
    match parts.get? 0 with
    | none => none
    | some tag =>
      if tag ≠ str "block" then some (.error (str "Second part is not block"))
      else
        match parts.get? 1 with
        | none => none
        | some nonceS =>
          match parseF64 nonceS with
          | none => some (.error (str "Nonce is not a number"))
          | some nonce =>
            match parts.get? 2 with
            | none => none
            | some acct =>
              if base64Ok acct then
                if acct.length ≠ 116 then
                  some (.error (str "Miner account is an invalid key"))
                else
                  if 3 ≤ parts.length then
                    match collectTxs (parts.drop 3) with
                    | none => none
                    | some (.error e) => some (.error e)
                    | some (.ok transactions) =>
                      some (.ok { transactions := transactions, nonce := nonce,
                                  miner_account := acct })
                  else none
              else some (.error (str "Miner account is not base64"))

/-- `impl Display for Block`: header fields each followed by a colon, then
the transactions rendered with `help_fmt(";")`, separated by colons. -/
def Block.toStr (b : Block) : Str :=
  natToStr b.serial ++ str ":block:" ++ printF64 b.nonce ++ ':' :: b.miner_account ++ ':' ::
    sepConcat [':'] (b.transactions.map (Transaction.helpFmt · [';']))

/-- `impl Display for NewBlock`. -/
def NewBlock.toStr (b : NewBlock) : Str :=
  str "block:" ++ printF64 b.nonce ++ ':' :: b.miner_account ++ ':' ::
    sepConcat [':'] (b.transactions.map (Transaction.helpFmt · [';']))

/-- `enum NewMessage`. -/
inductive NewMessage where
  | newTransaction : NewTransaction → NewMessage
  | newBlock : NewBlock → NewMessage
deriving DecidableEq, Repr

/-- `enum Message`. -/
inductive Message where
  | block : Block → Message
  | transaction : Transaction → Message
deriving DecidableEq, Repr

/-- `impl Display for Message`. -/
def Message.toStr : Message → Str
  | .block b => b.toStr
  | .transaction t => t.toStr

/-- `impl Display for NewMessage`. -/
def NewMessage.toStr : NewMessage → Str
  | .newBlock b => b.toStr
  | .newTransaction t => t.toStr

/-- `impl FromStr for Message`: the tag is read at part 1. -/
def Message.fromStr (s : Str) : Dec Message :=
  let parts := splitChar ':' s
  if parts.length < 2 then some (.error (str "Message has less than two parts"))
  else
    match parts.get? 1 with
    | none => none
    | some which =>
      if which = str "block" then
        match Block.fromStr s with
        | none => none
        | some (.error e) => some (.error e)
        | some (.ok b) => some (.ok (.block b))
      else if which = str "transaction" then
        match Transaction.fromStr s with
        | none => none
        | some (.error e) => some (.error e)
        | some (.ok t) => some (.ok (.transaction t))
      else some (.error (str "Message is not block or transaction"))

/-- `impl FromStr for NewMessage`: the tag is read at part 0. -/
def NewMessage.fromStr (s : Str) : Dec NewMessage :=
  let parts := splitChar ':' s
  if parts.length < 2 then some (.error (str "Message has less than two parts"))
  else
    match parts.get? 0 with
    | none => none
    | some which =>
      if which = str "block" then
        match NewBlock.fromStr s with
        | none => none
        | some (.error e) => some (.error e)
        | some (.ok b) => some (.ok (.newBlock b))
      else if which = str "transaction" then
        match NewTransaction.fromStr s with
        | none => none
        | some (.error e) => some (.error e)
        | some (.ok t) => some (.ok (.newTransaction t))
      else some (.error (str "Message is not block or transaction"))

/-- The string that `run_migration_if_needed` in `src/main.rs` appends to an
empty log: the rendered Genesis `NewBlock`. -/
def migrationEntry : Str := NewBlock.genesis.toStr

/-! ### Decimal digit strings -/

/-- Value of a little-endian digit list. -/
def ofLE (l : List Nat) : Nat := l.foldr (fun d a => d + 10 * a) 0

theorem natDigitsAux_sound : ∀ fuel n, n ≤ fuel → ofLE (natDigitsAux fuel n) = n := by
  intro fuel
  induction fuel with
  | zero => intro n hn; interval_cases n; rfl
  | succ fuel ih =>
    intro n hn
    by_cases h0 : n = 0
    · subst h0; simp [natDigitsAux, ofLE]
    · have hdiv : n / 10 < n := Nat.div_lt_self (Nat.pos_of_ne_zero h0) (by omega)
      have : ofLE (natDigitsAux fuel (n / 10)) = n / 10 := ih _ (by omega)
      simp only [natDigitsAux, if_neg h0, ofLE, List.foldr_cons]
      rw [show List.foldr (fun d a => d + 10 * a) 0 (natDigitsAux fuel (n / 10)) =
        ofLE (natDigitsAux fuel (n / 10)) from rfl, this]
      omega

theorem natDigitsAux_lt : ∀ fuel n d, d ∈ natDigitsAux fuel n → d < 10 := by
  intro fuel
  induction fuel with
  | zero => intro n d hd; simp [natDigitsAux] at hd
  | succ fuel ih =>
    intro n d hd
    by_cases h0 : n = 0
    · subst h0; simp [natDigitsAux] at hd
    · simp only [natDigitsAux, if_neg h0, List.mem_cons] at hd
      rcases hd with h | h
      · omega
      · exact ih _ _ h

theorem chVal_digitCh {d : Nat} (hd : d < 10) : chVal (digitCh d) = d := by
  interval_cases d <;> rfl

theorem isDigitCh_digitCh (d : Nat) : isDigitCh (digitCh d) = true := by
  unfold digitCh
  split <;> decide

theorem toLower_digitCh (d : Nat) : (digitCh d).toLower = digitCh d := by
  unfold digitCh
  split <;> decide

theorem digitsValBE_append (a b : Str) :
    digitsValBE (a ++ b) = b.foldl (fun x c => 10 * x + chVal c) (digitsValBE a) := by
  simp [digitsValBE, List.foldl_append]

theorem digitsValBE_rev_map (l : List Nat) (h : ∀ d ∈ l, d < 10) :
    digitsValBE ((l.map digitCh).reverse) = ofLE l := by
  induction l with
  | nil => rfl
  | cons d rest ih =>
    have hrest : ∀ x ∈ rest, x < 10 := fun x hx => h x (List.mem_cons_of_mem _ hx)
    simp only [List.map_cons, List.reverse_cons]
    rw [digitsValBE_append, ih hrest]
    simp [ofLE, chVal_digitCh (h d (List.mem_cons_self d rest))]
    ring

theorem digitsValBE_natToStr (n : Nat) : digitsValBE (natToStr n) = n := by
  unfold natToStr natDigitsLE
  by_cases h0 : n = 0
  · subst h0; rfl
  · rw [if_neg h0, digitsValBE_rev_map _ (natDigitsAux_lt n n),
      natDigitsAux_sound n n (le_refl n)]

theorem natToStr_mem {n : Nat} {c : Char} (hc : c ∈ natToStr n) :
    ∃ d, d < 10 ∧ c = digitCh d := by
  unfold natToStr at hc
  by_cases h0 : n = 0
  · rw [if_pos h0] at hc
    exact ⟨0, by omega, by simpa using hc⟩
  · rw [if_neg h0] at hc
    rw [List.mem_reverse, List.mem_map] at hc
    obtain ⟨d, hd, rfl⟩ := hc
    exact ⟨d, natDigitsAux_lt _ _ _ hd, rfl⟩

theorem natToStr_digit {n : Nat} {c : Char} (hc : c ∈ natToStr n) : isDigitCh c = true := by
  obtain ⟨d, _, rfl⟩ := natToStr_mem hc
  exact isDigitCh_digitCh d

theorem natToStr_ne_nil (n : Nat) : natToStr n ≠ [] := by
  unfold natToStr natDigitsLE
  by_cases h0 : n = 0
  · simp [h0]
  · rw [if_neg h0]
    intro h
    have := natDigitsAux_sound n n (le_refl n)
    rw [List.reverse_eq_nil_iff, List.map_eq_nil_iff] at h
    rw [h] at this
    exact h0 (by simpa [ofLE] using this.symm)

theorem parseU64_natToStr {n : Nat} (hn : n < 2^64) : parseU64 (natToStr n) = some n := by
  have hne : natToStr n ≠ [] := natToStr_ne_nil n
  have hplus : (natToStr n).head? ≠ some '+' := by
    obtain ⟨c, r, hcr⟩ := List.exists_cons_of_ne_nil hne
    obtain ⟨d, hd, rfl⟩ :=
      natToStr_mem (show c ∈ natToStr n by rw [hcr]; exact List.mem_cons_self c r)
    rw [hcr, List.head?_cons]
    intro h
    injection h with h
    revert h
    interval_cases d <;> decide
  have hall : (natToStr n).all isDigitCh = true :=
    List.all_eq_true.mpr fun c hc => natToStr_digit hc
  simp only [parseU64, if_neg hplus, if_neg hne, hall, if_true, digitsValBE_natToStr,
    if_pos hn]

/-! ### Odd part -/

theorem oddPartAux_spec (v : Nat) : ∀ fuel a, a % 2 = 1 → a * 2^v ≤ fuel →
    oddPartAux fuel (a * 2^v) = (a, v) := by
  induction v with
  | zero =>
    intro fuel a ha hle
    simp only [pow_zero, mul_one] at hle ⊢
    cases fuel with
    | zero => omega
    | succ fuel =>
      have h0 : a ≠ 0 := by omega
      simp only [oddPartAux, if_neg h0]
      rw [if_neg (by omega)]
  | succ v ih =>
    intro fuel a ha hle
    have hXpos : 0 < a * 2^v :=
      Nat.mul_pos (by omega) (pow_pos (by norm_num) v)
    have hdouble : a * 2^(v+1) = a * 2^v * 2 := by rw [pow_succ]; ring
    have hpos : 1 ≤ a * 2^(v+1) := by omega
    cases fuel with
    | zero => omega
    | succ fuel =>
      have h0 : a * 2^(v+1) ≠ 0 := by omega
      have heven : a * 2^(v+1) % 2 = 0 := by
        rw [hdouble]
        exact Nat.mul_mod_left _ 2
      have hdiv : a * 2^(v+1) / 2 = a * 2^v := by
        rw [hdouble]
        exact Nat.mul_div_cancel _ (by omega)
      have hle2 : a * 2^v ≤ fuel := by omega
      simp only [oddPartAux, if_neg h0, if_pos heven, hdiv, ih fuel a ha hle2]

theorem oddPart_spec {a : Nat} (v : Nat) (ha : a % 2 = 1) : oddPart (a * 2^v) = (a, v) :=
  oddPartAux_spec v (a * 2^v) a ha (le_refl _)

/-! ### Character classes -/

theorem b64CharOrPad_of_base64Ok {s : Str} (h : base64Ok s = true) :
    ∀ c ∈ s, b64CharOrPad c = true := by
  unfold base64Ok at h
  simp only [Bool.and_eq_true] at h
  exact List.all_eq_true.mp h.1.1.1.1.1

theorem b64_ne_of_mem {s : Str} (h : base64Ok s = true) {x : Char} (hx : x ∈ s)
    (c : Char) (hc : b64CharOrPad c = false) : x ≠ c := by
  intro he
  rw [he] at hx
  have := b64CharOrPad_of_base64Ok h c hx
  rw [hc] at this
  exact Bool.noConfusion this

theorem digit_ne {x : Char} (hx : isDigitCh x = true) (c : Char) (hc : isDigitCh c = false) :
    x ≠ c := by
  intro he
  rw [he, hc] at hx
  exact Bool.noConfusion hx

/-! ### takeWhile and dropWhile -/

theorem takeWhile_all {p : Char → Bool} : ∀ l : Str, (∀ c ∈ l, p c = true) →
    l.takeWhile p = l := by
  intro l hl
  induction l with
  | nil => rfl
  | cons c r ih =>
    rw [List.takeWhile_cons, hl c (List.mem_cons_self c r)]
    simp [ih fun x hx => hl x (List.mem_cons_of_mem _ hx)]

theorem dropWhile_all {p : Char → Bool} : ∀ l : Str, (∀ c ∈ l, p c = true) →
    l.dropWhile p = [] := by
  intro l hl
  induction l with
  | nil => rfl
  | cons c r ih =>
    rw [List.dropWhile_cons, hl c (List.mem_cons_self c r)]
    simp [ih fun x hx => hl x (List.mem_cons_of_mem _ hx)]

theorem takeWhile_append_stop {p : Char → Bool} (a : Str) {c : Char} (b : Str)
    (ha : ∀ x ∈ a, p x = true) (hc : p c = false) :
    (a ++ c :: b).takeWhile p = a := by
  induction a with
  | nil => simp [List.takeWhile_cons, hc]
  | cons x r ih =>
    rw [List.cons_append, List.takeWhile_cons, ha x (List.mem_cons_self x r)]
    simp [ih fun y hy => ha y (List.mem_cons_of_mem _ hy)]

theorem dropWhile_append_stop {p : Char → Bool} (a : Str) {c : Char} (b : Str)
    (ha : ∀ x ∈ a, p x = true) (hc : p c = false) :
    (a ++ c :: b).dropWhile p = c :: b := by
  induction a with
  | nil => simp [List.dropWhile_cons, hc]
  | cons x r ih =>
    rw [List.cons_append, List.dropWhile_cons, ha x (List.mem_cons_self x r)]
    simp [ih fun y hy => ha y (List.mem_cons_of_mem _ hy)]

/-! ### Splitting and joining -/

theorem splitChar_single {c : Char} {s : Str} (h : ∀ x ∈ s, x ≠ c) :
    splitChar c s = [s] :=
  List.splitOnP_eq_single _ _ fun x hx => by simpa using h x hx

theorem splitChar_first {c : Char} {a : Str} (b : Str) (h : ∀ x ∈ a, x ≠ c) :
    splitChar c (a ++ c :: b) = a :: splitChar c b :=
  List.splitOnP_first _ _ (fun x hx => by simpa using h x hx) c (by simp) b

theorem sepConcat_eq_intercalate (sep : Str) : ∀ l : List Str,
    sepConcat sep l = List.intercalate sep l := by
  intro l
  induction l with
  | nil => rfl
  | cons x xs ih =>
    cases xs with
    | nil => simp [sepConcat, List.intercalate]
    | cons y ys =>
      rw [sepConcat, ih]
      simp [List.intercalate, List.intersperse]

theorem splitChar_sepConcat {c : Char} : ∀ l : List Str, l ≠ [] →
    (∀ p ∈ l, ∀ x ∈ p, x ≠ c) → splitChar c (sepConcat [c] l) = l := by
  intro l hne hall
  rw [sepConcat_eq_intercalate]
  exact List.splitOn_intercalate l c
    (fun p hp hx => (hall p hp c hx) rfl) hne

theorem mem_sepConcat {sep : Str} : ∀ {l : List Str} {x : Char}, x ∈ sepConcat sep l →
    x ∈ sep ∨ ∃ p ∈ l, x ∈ p := by
  intro l
  induction l with
  | nil => intro x hx; exact absurd hx (List.not_mem_nil x)
  | cons a xs ih =>
    intro x hx
    cases xs with
    | nil =>
      exact Or.inr ⟨a, List.mem_cons_self a [], hx⟩
    | cons y ys =>
      rw [sepConcat] at hx
      rcases List.mem_append.mp hx with h | h
      · rcases List.mem_append.mp h with h | h
        · exact Or.inr ⟨a, List.mem_cons_self _ _, h⟩
        · exact Or.inl h
      · rcases ih h with h | ⟨p, hp, hxp⟩
        · exact Or.inl h
        · exact Or.inr ⟨p, List.mem_cons_of_mem _ hp, hxp⟩

/-! ### Character replacement -/

theorem replaceChar_append (c d : Char) (a b : Str) :
    replaceChar c d (a ++ b) = replaceChar c d a ++ replaceChar c d b := by
  simp [replaceChar]

theorem replaceChar_of_not_mem {c d : Char} : ∀ {s : Str}, (∀ x ∈ s, x ≠ c) →
    replaceChar c d s = s := by
  intro s
  induction s with
  | nil => intro _; rfl
  | cons x r ih =>
    intro h
    simp only [replaceChar, List.map_cons] at ih ⊢
    rw [if_neg (h x (List.mem_cons_self x r)),
      ih fun y hy => h y (List.mem_cons_of_mem _ hy)]

theorem replaceChar_sepConcat (c d : Char) (l : List Str) :
    replaceChar c d (sepConcat [c] l) = sepConcat [d] (l.map (replaceChar c d)) := by
  induction l with
  | nil => rfl
  | cons a xs ih =>
    cases xs with
    | nil => rfl
    | cons y ys =>
      rw [sepConcat, replaceChar_append, replaceChar_append, ih]
      simp only [List.map_cons, sepConcat]
      congr 1
      simp [replaceChar]

/-! ### Printed floats re-parse exactly -/

theorem printPosFin_chars {a : Nat} {e : Int} :
    ∀ c ∈ printPosFin a e, isDigitCh c = true ∨ c = '.' := by
  intro c hc
  unfold printPosFin at hc
  by_cases he : 0 ≤ e
  · rw [if_pos he] at hc
    exact Or.inl (natToStr_digit hc)
  · rw [if_neg he] at hc
    by_cases hk : (-e).toNat < (natToStr (a * 5^(-e).toNat)).length
    · rw [if_pos hk] at hc
      rcases List.mem_append.mp hc with h | h
      · exact Or.inl (natToStr_digit (List.take_subset _ _ h))
      · rcases List.mem_cons.mp h with h | h
        · exact Or.inr h
        · exact Or.inl (natToStr_digit (List.drop_subset _ _ h))
    · rw [if_neg hk] at hc
      rcases List.mem_cons.mp hc with h | h
      · exact Or.inl (by rw [h]; decide)
      · rcases List.mem_cons.mp h with h | h
        · exact Or.inr h
        · rcases List.mem_append.mp h with h | h
          · exact Or.inl (by rw [List.eq_of_mem_replicate h]; decide)
          · exact Or.inl (natToStr_digit h)

theorem printF64_chars {a : F64} :
    ∀ c ∈ printF64 a, isDigitCh c = true ∨ c ∈ str "-.NaNinf" := by
  intro c hc
  cases a with
  | nan =>
    have h : ∀ x ∈ str "NaN", x ∈ str "-.NaNinf" := by decide
    exact Or.inr (h c hc)
  | inf neg =>
    cases neg with
    | false =>
      have h : ∀ x ∈ str "inf", x ∈ str "-.NaNinf" := by decide
      exact Or.inr (h c hc)
    | true =>
      have h : ∀ x ∈ str "-inf", x ∈ str "-.NaNinf" := by decide
      exact Or.inr (h c hc)
  | finite m e =>
    simp only [printF64] at hc
    by_cases h0 : m = 0
    · rw [if_pos h0] at hc
      rcases List.mem_cons.mp hc with h | h
      · left; rw [h]; decide
      · exact absurd h (List.not_mem_nil c)
    · rw [if_neg h0] at hc
      rcases List.mem_append.mp hc with h | h
      · by_cases hm : m < 0
        · rw [if_pos hm] at h
          rcases List.mem_cons.mp h with h | h
          · right; rw [h]; decide
          · exact absurd h (List.not_mem_nil c)
        · rw [if_neg hm] at h
          exact absurd h (List.not_mem_nil c)
      · rcases printPosFin_chars c h with h | h
        · exact Or.inl h
        · right; rw [h]; decide

theorem printF64_no_delim {a : F64} {c : Char} (hc : c ∈ printF64 a) :
    c ≠ ':' ∧ c ≠ ';' ∧ c ≠ ',' := by
  rcases printF64_chars c hc with h | h
  · exact ⟨digit_ne h ':' (by decide), digit_ne h ';' (by decide), digit_ne h ',' (by decide)⟩
  · have hall : ∀ x ∈ str "-.NaNinf", x ≠ ':' ∧ x ≠ ';' ∧ x ≠ ',' := by decide
    exact hall c h

theorem low_ne_special {t : Str} {d : Nat} (hd : d < 10)
    (hh : t.head? = some (digitCh d)) :
    t.map Char.toLower ≠ str "inf" ∧ t.map Char.toLower ≠ str "infinity" ∧
      t.map Char.toLower ≠ str "nan" := by
  obtain ⟨c, r, rfl⟩ : ∃ c r, t = c :: r := by
    cases t with
    | nil => exact absurd hh (by simp)
    | cons c r => exact ⟨c, r, rfl⟩
  rw [List.head?_cons, Option.some_inj] at hh
  subst hh
  refine ⟨?_, ?_, ?_⟩ <;> intro hEq <;>
    · have h0 := congrArg List.head? hEq
      rw [List.map_cons, List.head?_cons, toLower_digitCh] at h0
      revert h0
      interval_cases d <;> decide

theorem parseF64_decimal (neg : Bool) (I F : Str)
    (hI : ∀ c ∈ I, isDigitCh c = true) (hF : ∀ c ∈ F, isDigitCh c = true)
    (hd : ∃ d, d < 10 ∧ I.head? = some (digitCh d)) :
    parseF64 ((cond neg ['-'] []) ++ I ++ (if F = [] then [] else '.' :: F)) =
      some (decToF64 neg (digitsValBE (I ++ F)) (-(F.length : Int))) := by
  obtain ⟨d, hdlt, hh⟩ := hd
  obtain ⟨c, I', rfl⟩ : ∃ c I', I = c :: I' := by
    cases I with
    | nil => exact absurd hh (by simp)
    | cons c I' => exact ⟨c, I', rfl⟩
  rw [List.head?_cons, Option.some_inj] at hh
  subst hh
  have hdm : digitCh d ≠ '-' := by interval_cases d <;> decide
  have hdp : digitCh d ≠ '+' := by interval_cases d <;> decide
  have hdotF : isDigitCh '.' = false := by decide
  set tl := (if F = [] then [] else '.' :: F) with htl
  have htake : ((digitCh d :: I') ++ tl).takeWhile isDigitCh = digitCh d :: I' := by
    by_cases hFnil : F = []
    · rw [htl, if_pos hFnil, List.append_nil]; exact takeWhile_all _ hI
    · rw [htl, if_neg hFnil]; exact takeWhile_append_stop _ _ hI hdotF
  have hdrop : ((digitCh d :: I') ++ tl).dropWhile isDigitCh = tl := by
    by_cases hFnil : F = []
    · rw [htl, if_pos hFnil, List.append_nil, dropWhile_all _ hI]
    · rw [htl, if_neg hFnil]; exact dropWhile_append_stop _ _ hI hdotF
  have hlow := low_ne_special hdlt
    (show ((digitCh d :: I') ++ tl).head? = some (digitCh d) by simp)
  have hfrac :
      (if tl.head? = some '.' then tl.tail.takeWhile isDigitCh else []) = F ∧
      (if tl.head? = some '.' then tl.tail.dropWhile isDigitCh else tl) = [] := by
    by_cases hFnil : F = []
    · rw [htl, if_pos hFnil]
      exact ⟨by simp [hFnil], by simp⟩
    · rw [htl, if_neg hFnil]
      simp only [List.head?_cons, List.tail_cons, if_pos rfl]
      exact ⟨takeWhile_all _ hF, dropWhile_all _ hF⟩
  have htake' : (digitCh d :: (I' ++ tl)).takeWhile isDigitCh = digitCh d :: I' := by
    rw [← List.cons_append]; exact htake
  have hdrop' : (digitCh d :: (I' ++ tl)).dropWhile isDigitCh = tl := by
    rw [← List.cons_append]; exact hdrop
  have hdm' : (some (digitCh d) = some '-') = False :=
    eq_false fun h => hdm (Option.some_inj.mp h)
  have hdp' : (some (digitCh d) = some '+') = False :=
    eq_false fun h => hdp (Option.some_inj.mp h)
  have hinf1 : ((digitCh d :: (I' ++ tl)).map Char.toLower = str "inf") = False := by
    rw [← List.cons_append]; exact eq_false hlow.1
  have hinf2 : ((digitCh d :: (I' ++ tl)).map Char.toLower = str "infinity") = False := by
    rw [← List.cons_append]; exact eq_false hlow.2.1
  have hnan1 : ((digitCh d :: (I' ++ tl)).map Char.toLower = str "nan") = False := by
    rw [← List.cons_append]; exact eq_false hlow.2.2
  have hIne : (digitCh d :: I' = ([] : Str) ∧ F = []) = False :=
    eq_false fun h => List.noConfusion h.1
  have hval : digitsValBE (digitCh d :: I' ++ F) = digitsValBE (digitCh d :: I' ++ F) := rfl
  cases neg with
  | false =>
    have hs : ((cond false ['-'] [] ++ (digitCh d :: I')) ++ tl) =
        digitCh d :: (I' ++ tl) := by simp
    rw [hs]
    simp only [parseF64, List.head?_cons, hdm', hdp', or_self, decide_False, if_false,
      hinf1, hinf2, hnan1, htake', hdrop', hfrac.1, hfrac.2, hIne,
      eq_self_iff_true, if_true, List.cons_append]
  | true =>
    have hs : ((cond true ['-'] [] ++ (digitCh d :: I')) ++ tl) =
        '-' :: (digitCh d :: (I' ++ tl)) := by simp
    rw [hs]
    simp only [parseF64, List.head?_cons, List.tail_cons, eq_self_iff_true, true_or, or_true,
      if_true, decide_True, hinf1, hinf2, hnan1, htake', hdrop', hfrac.1, hfrac.2, hIne,
      or_self, if_false, List.cons_append]

theorem mkFinOk_parts {a : Nat} {e : Int} (h : mkFinOk a e = true) :
    a % 2 = 1 ∧ a < 2^53 ∧ -1074 ≤ e ∧ a * 2^(e + 1074).toNat ≤ maxScaled := by
  unfold mkFinOk at h
  simp only [Bool.and_eq_true, decide_eq_true_eq] at h
  exact ⟨h.1.1.1, h.1.1.2, h.1.2, h.2⟩

theorem wfF64_finite {m e : Int} (h : wfF64 (.finite m e) = true) (h0 : m ≠ 0) :
    mkFinOk m.natAbs e = true := by
  unfold wfF64 at h
  rw [Bool.or_eq_true] at h
  rcases h with h | h
  · simp only [Bool.and_eq_true, decide_eq_true_eq] at h
    exact absurd h.1 h0
  · exact h

theorem wfF64_zero {e : Int} (h : wfF64 (.finite 0 e) = true) : e = 0 := by
  unfold wfF64 at h
  rw [Bool.or_eq_true] at h
  rcases h with h | h
  · simp only [Bool.and_eq_true, decide_eq_true_eq] at h
    exact h.2
  · unfold mkFinOk at h
    simp only [Int.natAbs_zero, Bool.and_eq_true, decide_eq_true_eq] at h
    omega

theorem natToStr_head (n : Nat) : ∃ d, d < 10 ∧ (natToStr n).head? = some (digitCh d) := by
  obtain ⟨c, r, hcr⟩ := List.exists_cons_of_ne_nil (natToStr_ne_nil n)
  obtain ⟨d, hd, rfl⟩ :=
    natToStr_mem (show c ∈ natToStr n by rw [hcr]; exact List.mem_cons_self c r)
  exact ⟨d, hd, by rw [hcr, List.head?_cons]⟩

theorem digitsValBE_zeros (z : Nat) (l : Str) :
    digitsValBE (List.replicate z '0' ++ l) = digitsValBE l := by
  induction z with
  | zero => rfl
  | succ z ih =>
    rw [List.replicate_succ, List.cons_append]
    have h0 : chVal '0' = 0 := by decide
    simp only [digitsValBE, List.foldl_cons, h0] at ih ⊢
    simpa using ih

theorem decToF64_exact_nonneg {a : Nat} {e : Int} (neg : Bool) (ha : a % 2 = 1)
    (hok : mkFinOk a e = true) (he : 0 ≤ e) :
    decToF64 neg (a * 2^e.toNat) 0 = .finite (sgnInt neg * a) e := by
  have h2 : (0:Nat) < 2^e.toNat := pow_pos (by norm_num) _
  have hne : a * 2^e.toNat ≠ 0 := Nat.ne_of_gt (Nat.mul_pos (by omega) h2)
  have hop : oddPart (a * 2^e.toNat * 5^(0:Int).toNat * 2^(0:Int).toNat) = (a, e.toNat) := by
    simp only [Int.toNat_zero, pow_zero, mul_one]
    exact oddPart_spec e.toNat ha
  have hcast : ((e.toNat : Int)) = e := Int.toNat_of_nonneg he
  have hok' : mkFinOk a (e.toNat : Int) = true := by rw [hcast]; exact hok
  simp only [decToF64, if_neg hne, if_pos (le_refl (0:Int)), hop, hok', if_true, hcast, hok,
    eq_self_iff_true, ite_true]

theorem decToF64_exact_negexp {a k : Nat} (neg : Bool) (ha : a % 2 = 1) (hk : 1 ≤ k)
    (hok : mkFinOk a (-(k : Int)) = true) :
    decToF64 neg (a * 5^k) (-(k : Int)) = .finite (sgnInt neg * a) (-(k : Int)) := by
  have h5 : (0:Nat) < 5^k := pow_pos (by norm_num) _
  have hne : a * 5^k ≠ 0 := Nat.ne_of_gt (Nat.mul_pos (by omega) h5)
  have hneg : ¬ (0:Int) ≤ -(k:Int) := by omega
  have htn : ((-(-(k:Int))).toNat) = k := by simp
  have hmod : a * 5^k % 5^k = 0 := Nat.mul_mod_left a (5^k)
  have hdiv : a * 5^k / 5^k = a := Nat.mul_div_cancel a h5
  have hop : oddPart a = (a, 0) := by
    have := oddPart_spec (a := a) 0 ha
    simpa using this
  have hzk : ((0:Nat) : Int) - (k:Int) = -(k:Int) := by omega
  simp only [decToF64, if_neg hne, if_neg hneg, htn, hmod, eq_self_iff_true, if_true,
    hdiv, hop, hzk, hok]

theorem sgnInt_natAbs {m : Int} (h0 : m ≠ 0) :
    sgnInt (decide (m < 0)) * (m.natAbs : Int) = m := by
  by_cases hm : m < 0
  · rw [decide_eq_true hm]
    show -1 * (m.natAbs : Int) = m
    omega
  · rw [decide_eq_false hm]
    show 1 * (m.natAbs : Int) = m
    omega

theorem parseF64_printF64 {a : F64} (h : wfF64 a = true) :
    parseF64 (printF64 a) = some a := by
  cases a with
  | nan => decide
  | inf neg => cases neg <;> decide
  | finite m e =>
    by_cases h0 : m = 0
    · subst h0
      have he := wfF64_zero h
      subst he
      decide
    · have hfin := wfF64_finite h h0
      obtain ⟨hodd, hlt, hge, hrange⟩ := mkFinOk_parts hfin
      have hsign : printF64 (.finite m e) =
          (cond (decide (m < 0)) ['-'] []) ++ printPosFin m.natAbs e := by
        simp only [printF64, if_neg h0]
        by_cases hm : m < 0 <;> simp [hm]
      rw [hsign]
      by_cases he : 0 ≤ e
      · have hshape : printPosFin m.natAbs e = natToStr (m.natAbs * 2^e.toNat) := by
          simp only [printPosFin, if_pos he]
        rw [hshape]
        have hres := parseF64_decimal (decide (m < 0)) (natToStr (m.natAbs * 2^e.toNat)) []
          (fun c hc => natToStr_digit hc) (fun c hc => absurd hc (List.not_mem_nil c))
          (natToStr_head _)
        simp only [eq_self_iff_true, ite_true, List.append_nil, List.length_nil,
          Nat.cast_zero, neg_zero, digitsValBE_natToStr] at hres
        rw [hres, decToF64_exact_nonneg (decide (m < 0)) hodd hfin he,
          sgnInt_natAbs h0]
      · push_neg at he
        set k := (-e).toNat with hkdef
        have hk1 : 1 ≤ k := by omega
        have hek : e = -(k : Int) := by omega
        set ds := natToStr (m.natAbs * 5^k) with hdsdef
        have hdsne : ds ≠ [] := natToStr_ne_nil _
        have hdsval : digitsValBE ds = m.natAbs * 5^k := digitsValBE_natToStr _
        have hfin' : mkFinOk m.natAbs (-(k:Int)) = true := by rw [← hek]; exact hfin
        by_cases hkL : k < ds.length
        · have hshape : printPosFin m.natAbs e =
              ds.take (ds.length - k) ++ '.' :: ds.drop (ds.length - k) := by
            simp only [printPosFin, if_neg (not_le.mpr he), ← hkdef, ← hdsdef, if_pos hkL]
          have hFne : ds.drop (ds.length - k) ≠ [] := by
            intro hF
            have := congrArg List.length hF
            simp only [List.length_drop, List.length_nil] at this
            omega
          have hhead : ∃ d, d < 10 ∧ (ds.take (ds.length - k)).head? = some (digitCh d) := by
            obtain ⟨d, hd, hh⟩ := natToStr_head (m.natAbs * 5^k)
            obtain ⟨c, r, hcr⟩ := List.exists_cons_of_ne_nil hdsne
            obtain ⟨j, hj⟩ : ∃ j, ds.length - k = j + 1 := ⟨ds.length - k - 1, by omega⟩
            refine ⟨d, hd, ?_⟩
            rw [← hdsdef] at hh
            rw [hcr, List.head?_cons] at hh
            rw [hj, hcr, List.take_succ_cons, List.head?_cons]
            exact hh
          have hres := parseF64_decimal (decide (m < 0)) (ds.take (ds.length - k))
            (ds.drop (ds.length - k))
            (fun c hc => natToStr_digit (List.take_subset _ _ hc))
            (fun c hc => natToStr_digit (List.drop_subset _ _ hc))
            hhead
          rw [if_neg hFne] at hres
          rw [hshape, ← List.append_assoc, hres]
          have hval : digitsValBE (ds.take (ds.length - k) ++ ds.drop (ds.length - k)) =
              m.natAbs * 5^k := by rw [List.take_append_drop]; exact hdsval
          have hlen : ((ds.drop (ds.length - k)).length : Int) = (k : Int) := by
            rw [List.length_drop]
            omega
          rw [hval, hlen, decToF64_exact_negexp (decide (m < 0)) hodd hk1 hfin',
            sgnInt_natAbs h0, ← hek]
        · push_neg at hkL
          have hshape : printPosFin m.natAbs e =
              '0' :: '.' :: (List.replicate (k - ds.length) '0' ++ ds) := by
            simp only [printPosFin, if_neg (not_le.mpr he), ← hkdef, ← hdsdef,
              if_neg (not_lt.mpr hkL)]
          have hFne : List.replicate (k - ds.length) '0' ++ ds ≠ [] := by
            simp [hdsne]
          have hres := parseF64_decimal (decide (m < 0)) ['0']
            (List.replicate (k - ds.length) '0' ++ ds)
            (by intro c hc; rcases List.mem_cons.mp hc with h | h
                · rw [h]; decide
                · exact absurd h (List.not_mem_nil c))
            (by intro c hc
                rcases List.mem_append.mp hc with h | h
                · rw [List.eq_of_mem_replicate h]; decide
                · exact natToStr_digit h)
            ⟨0, by omega, by rw [List.head?_cons]; rfl⟩
          rw [if_neg hFne] at hres
          have hshape2 : (cond (decide (m < 0)) ['-'] []) ++ printPosFin m.natAbs e =
              (cond (decide (m < 0)) ['-'] []) ++ ['0'] ++
                ('.' :: (List.replicate (k - ds.length) '0' ++ ds)) := by
            rw [hshape]
            simp
          rw [hshape2, hres]
          have hval : digitsValBE (['0'] ++ (List.replicate (k - ds.length) '0' ++ ds)) =
              m.natAbs * 5^k := by
            have : (['0'] : Str) ++ (List.replicate (k - ds.length) '0' ++ ds) =
                List.replicate (k - ds.length + 1) '0' ++ ds := by
              rw [List.replicate_succ]
              simp
            rw [this, digitsValBE_zeros]
            exact hdsval
          have hlen : (((List.replicate (k - ds.length) '0' ++ ds)).length : Int) = (k : Int) := by
            simp only [List.length_append, List.length_replicate]
            omega
          rw [hval, hlen, decToF64_exact_negexp (decide (m < 0)) hodd hk1 hfin',
            sgnInt_natAbs h0, ← hek]

/-! ### The Move codec round trip -/

/-- A finite, strictly positive value of the model. -/
def posFinF64 : F64 → Bool
  | .finite m _ => decide (0 < m)
  | _ => false

theorem leF64_pos_zero {m e : Int} (hm : 0 < m) :
    leF64 (.finite m e) (.finite 0 0) = false := by
  have h2 : (0:Int) < 2^(e - min e 0).toNat := pow_pos (by norm_num) _
  have hlhs : (0:Int) < m * 2^(e - min e 0).toNat := mul_pos hm h2
  simp only [leF64]
  apply decide_eq_false
  rw [zero_mul]
  omega

theorem Move.toStr_eq (mv : Move) (hfin : mv.amount ≠ .inf false) :
    mv.toStr = mv.from_ ++ ',' :: printF64 mv.amount := by
  simp only [Move.toStr, if_neg hfin]

theorem moveToStr_chars {mv : Move} (hb : base64Ok mv.from_ = true) :
    ∀ x ∈ mv.toStr, x ≠ ':' ∧ x ≠ ';' := by
  intro x hx
  simp only [Move.toStr] at hx
  rcases List.mem_append.mp hx with hx | hx
  · exact ⟨b64_ne_of_mem hb hx ':' (by decide), b64_ne_of_mem hb hx ';' (by decide)⟩
  · rcases List.mem_cons.mp hx with hx | hx
    · exact ⟨by rw [hx]; decide, by rw [hx]; decide⟩
    · obtain ⟨h1, h2, _⟩ := printF64_no_delim hx
      exact ⟨h1, h2⟩

theorem moveRoundTrip {mv : Move} (hb : base64Ok mv.from_ = true)
    (hlen : mv.from_.length = 116) (hpos : posFinF64 mv.amount = true)
    (hwf : wfF64 mv.amount = true) :
    Move.fromStr mv.toStr = some (.ok mv) := by
  obtain ⟨m, e, ham⟩ : ∃ m e, mv.amount = .finite m e := by
    cases hma : mv.amount with
    | nan => rw [hma] at hpos; exact absurd hpos (by decide)
    | inf b => rw [hma] at hpos; exact absurd hpos (by simp [posFinF64])
    | finite m e => exact ⟨m, e, rfl⟩
  have hmpos : 0 < m := by
    rw [ham] at hpos
    simpa [posFinF64] using hpos
  have hninf : mv.amount ≠ .inf false := by rw [ham]; intro hc; exact F64.noConfusion hc
  have henc := Move.toStr_eq mv hninf
  have hsplit : splitChar ',' (mv.from_ ++ ',' :: printF64 mv.amount) =
      [mv.from_, printF64 mv.amount] := by
    rw [splitChar_first _ fun x hx => b64_ne_of_mem hb hx ',' (by decide)]
    rw [splitChar_single fun x hx => (printF64_no_delim hx).2.2]
  have hle : leF64 mv.amount (.finite 0 0) = false := by
    rw [ham]; exact leF64_pos_zero hmpos
  rw [henc]
  simp only [Move.fromStr, hsplit, List.length_cons, List.length_nil]
  rw [if_neg (by norm_num)]
  simp only [List.get?_cons_zero, List.get?_cons_succ, if_pos hb]
  rw [if_neg (show ¬ (List.length mv.from_ ≠ 116) from fun hc => hc hlen)]
  rw [parseF64_printF64 hwf]
  simp only [hle, Bool.false_eq_true, if_false, if_neg hninf]

/-! ### The Transaction and Block codec round trips -/

/-- Validity of a Move record: well-formed key, finite positive amount. -/
def wfMove (mv : Move) : Bool :=
  base64Ok mv.from_ && decide (mv.from_.length = 116) && posFinF64 mv.amount &&
    wfF64 mv.amount

/-- Validity of a Transaction record, exactly the checks of its decoder. -/
def wfTx (t : Transaction) : Bool :=
  decide (t.serial < 2^64) && base64Ok t.unique_string && decide (t.unique_string ≠ []) &&
  base64Ok t.sig && decide (t.sig.length = 88) &&
  base64Ok t.sender && decide (t.sender.length = 116) && t.moves.all wfMove

theorem wfMove_parts {mv : Move} (h : wfMove mv = true) :
    base64Ok mv.from_ = true ∧ mv.from_.length = 116 ∧ posFinF64 mv.amount = true ∧
      wfF64 mv.amount = true := by
  unfold wfMove at h
  simp only [Bool.and_eq_true, decide_eq_true_eq] at h
  exact ⟨h.1.1.1, h.1.1.2, h.1.2, h.2⟩

theorem wfTx_parts {t : Transaction} (h : wfTx t = true) :
    t.serial < 2^64 ∧ base64Ok t.unique_string = true ∧ t.unique_string ≠ [] ∧
    base64Ok t.sig = true ∧ t.sig.length = 88 ∧
    base64Ok t.sender = true ∧ t.sender.length = 116 ∧
    ∀ mv ∈ t.moves, wfMove mv = true := by
  unfold wfTx at h
  simp only [Bool.and_eq_true, decide_eq_true_eq, List.all_eq_true] at h
  exact ⟨h.1.1.1.1.1.1.1, h.1.1.1.1.1.1.2, h.1.1.1.1.1.2, h.1.1.1.1.2, h.1.1.1.2,
    h.1.1.2, h.1.2, h.2⟩

theorem collectMoves_map {l : List Move} (h : ∀ mv ∈ l, wfMove mv = true) :
    collectMoves (l.map Move.toStr) = some (.ok l) := by
  induction l with
  | nil => rfl
  | cons mv rest ih =>
    obtain ⟨hb, hlen, hpos, hwf⟩ := wfMove_parts (h mv (List.mem_cons_self _ _))
    simp only [List.map_cons, collectMoves, moveRoundTrip hb hlen hpos hwf,
      ih fun x hx => h x (List.mem_cons_of_mem _ hx)]

theorem helpFmt_mem {t : Transaction} {sep : Str} {x : Char} (hx : x ∈ t.helpFmt sep) :
    x ∈ sep ∨ x ∈ natToStr t.serial ∨ x ∈ str "transaction" ∨ x ∈ t.unique_string ∨
      x ∈ t.sig ∨ x ∈ t.sender ∨ ∃ mv ∈ t.moves, x ∈ mv.toStr := by
  simp only [Transaction.helpFmt, List.mem_append] at hx
  rcases hx with (((((((((hx | hx) | hx) | hx) | hx) | hx) | hx) | hx) | hx) | hx) | hx
  · exact Or.inr (Or.inl hx)
  · exact Or.inl hx
  · exact Or.inr (Or.inr (Or.inl hx))
  · exact Or.inl hx
  · exact Or.inr (Or.inr (Or.inr (Or.inl hx)))
  · exact Or.inl hx
  · exact Or.inr (Or.inr (Or.inr (Or.inr (Or.inl hx))))
  · exact Or.inl hx
  · exact Or.inr (Or.inr (Or.inr (Or.inr (Or.inr (Or.inl hx)))))
  · exact Or.inl hx
  · rcases mem_sepConcat hx with hx | ⟨p, hp, hxp⟩
    · exact Or.inl hx
    · obtain ⟨mv, hmv, rfl⟩ := List.mem_map.mp hp
      exact Or.inr (Or.inr (Or.inr (Or.inr (Or.inr (Or.inr ⟨mv, hmv, hxp⟩)))))

theorem helpFmt_chars {t : Transaction} (h : wfTx t = true) (sep : Str) {x : Char}
    (hx : x ∈ t.helpFmt sep) : x ∈ sep ∨ (x ≠ ':' ∧ x ≠ ';') := by
  obtain ⟨_, hu, _, hg, _, hsnd, _, hmoves⟩ := wfTx_parts h
  rcases helpFmt_mem hx with hx | hx | hx | hx | hx | hx | ⟨mv, hmv, hx⟩
  · exact Or.inl hx
  · exact Or.inr ⟨digit_ne (natToStr_digit hx) ':' (by decide),
      digit_ne (natToStr_digit hx) ';' (by decide)⟩
  · have hall : ∀ y ∈ str "transaction", y ≠ ':' ∧ y ≠ ';' := by decide
    exact Or.inr (hall x hx)
  · exact Or.inr ⟨b64_ne_of_mem hu hx ':' (by decide), b64_ne_of_mem hu hx ';' (by decide)⟩
  · exact Or.inr ⟨b64_ne_of_mem hg hx ':' (by decide), b64_ne_of_mem hg hx ';' (by decide)⟩
  · exact Or.inr ⟨b64_ne_of_mem hsnd hx ':' (by decide),
      b64_ne_of_mem hsnd hx ';' (by decide)⟩
  · exact Or.inr (moveToStr_chars (wfMove_parts (hmoves mv hmv)).1 x hx)

theorem helpFmt_semi_no_colon {t : Transaction} (h : wfTx t = true) {x : Char}
    (hx : x ∈ t.helpFmt [';']) : x ≠ ':' := by
  rcases helpFmt_chars h [';'] hx with hx | hx
  · rcases List.mem_cons.mp hx with hx | hx
    · rw [hx]; decide
    · exact absurd hx (List.not_mem_nil x)
  · exact hx.1

theorem replace_helpFmt {t : Transaction} (h : wfTx t = true) :
    replaceChar ';' ':' (t.helpFmt [';']) = t.helpFmt [':'] := by
  obtain ⟨_, hu, _, hg, _, hsnd, _, hmoves⟩ := wfTx_parts h
  have hsep : replaceChar ';' ':' [';'] = [':'] := by decide
  have htr : replaceChar ';' ':' (str "transaction") = str "transaction" := by decide
  have hser : replaceChar ';' ':' (natToStr t.serial) = natToStr t.serial :=
    replaceChar_of_not_mem fun x hx => digit_ne (natToStr_digit hx) ';' (by decide)
  have hu' : replaceChar ';' ':' t.unique_string = t.unique_string :=
    replaceChar_of_not_mem fun x hx => b64_ne_of_mem hu hx ';' (by decide)
  have hg' : replaceChar ';' ':' t.sig = t.sig :=
    replaceChar_of_not_mem fun x hx => b64_ne_of_mem hg hx ';' (by decide)
  have hsnd' : replaceChar ';' ':' t.sender = t.sender :=
    replaceChar_of_not_mem fun x hx => b64_ne_of_mem hsnd hx ';' (by decide)
  have hmv : (t.moves.map Move.toStr).map (replaceChar ';' ':') = t.moves.map Move.toStr := by
    rw [List.map_map]
    apply List.map_congr_left
    intro mv hmv
    exact replaceChar_of_not_mem fun x hx =>
      (moveToStr_chars (wfMove_parts (hmoves mv hmv)).1 x hx).2
  simp only [Transaction.helpFmt, replaceChar_append, hsep, htr, hser, hu', hg', hsnd',
    replaceChar_sepConcat, hmv]

theorem splitChar_helpFmt {t : Transaction} (h : wfTx t = true) (hmv : t.moves ≠ []) :
    splitChar ':' (t.helpFmt [':']) =
      natToStr t.serial :: str "transaction" :: t.unique_string :: t.sig :: t.sender ::
        t.moves.map Move.toStr := by
  obtain ⟨_, hu, _, hg, _, hsnd, _, hmoves⟩ := wfTx_parts h
  have hser : ∀ x ∈ natToStr t.serial, x ≠ ':' :=
    fun x hx => digit_ne (natToStr_digit hx) ':' (by decide)
  have htr : ∀ x ∈ str "transaction", x ≠ ':' := by decide
  have hu' : ∀ x ∈ t.unique_string, x ≠ ':' := fun x hx => b64_ne_of_mem hu hx ':' (by decide)
  have hg' : ∀ x ∈ t.sig, x ≠ ':' := fun x hx => b64_ne_of_mem hg hx ':' (by decide)
  have hsnd' : ∀ x ∈ t.sender, x ≠ ':' := fun x hx => b64_ne_of_mem hsnd hx ':' (by decide)
  have hmvne : t.moves.map Move.toStr ≠ [] := fun hh => hmv (List.map_eq_nil_iff.mp hh)
  have hmv' : ∀ p ∈ t.moves.map Move.toStr, ∀ x ∈ p, x ≠ ':' := by
    intro p hp x hx
    obtain ⟨mv, hmvm, rfl⟩ := List.mem_map.mp hp
    exact (moveToStr_chars (wfMove_parts (hmoves mv hmvm)).1 x hx).1
  simp only [Transaction.helpFmt, List.append_assoc, List.singleton_append,
    List.cons_append, List.nil_append]
  rw [splitChar_first _ hser, splitChar_first _ htr, splitChar_first _ hu',
    splitChar_first _ hg', splitChar_first _ hsnd',
    splitChar_sepConcat _ hmvne hmv']

theorem transactionRoundTrip {t : Transaction} (h : wfTx t = true) (hmv : t.moves ≠ []) :
    Transaction.fromStr t.toStr = some (.ok t) := by
  obtain ⟨hser, hu, hune, hg, hglen, hsnd, hsndlen, hmoves⟩ := wfTx_parts h
  have hsplit := splitChar_helpFmt h hmv
  have hlen5 : ¬ ((natToStr t.serial :: str "transaction" :: t.unique_string :: t.sig ::
      t.sender :: t.moves.map Move.toStr).length < 5) := by
    simp [List.length_cons]
  have hge5 : 5 ≤ (natToStr t.serial :: str "transaction" :: t.unique_string :: t.sig ::
      t.sender :: t.moves.map Move.toStr).length := by
    simp [List.length_cons]
  have htag : ¬ (str "transaction" ≠ str "transaction") := fun hc => hc rfl
  have hglen' : ¬ (t.sig.length ≠ 88) := fun hc => hc hglen
  have hsndlen' : ¬ (t.sender.length ≠ 116) := fun hc => hc hsndlen
  have hdrop : (natToStr t.serial :: str "transaction" :: t.unique_string :: t.sig ::
      t.sender :: t.moves.map Move.toStr).drop 5 = t.moves.map Move.toStr := rfl
  simp only [Transaction.toStr] at hsplit ⊢
  simp only [Transaction.fromStr, hsplit, if_neg hlen5, List.get?_cons_zero,
    List.get?_cons_succ, parseU64_natToStr hser, if_neg htag, if_pos hu, if_neg hune,
    if_pos hg, if_neg hglen', if_pos hsnd, if_neg hsndlen', if_pos hge5, hdrop,
    collectMoves_map hmoves]

theorem collectTxs_map {l : List Transaction} (h : ∀ t ∈ l, wfTx t = true)
    (hm : ∀ t ∈ l, t.moves ≠ []) :
    collectTxs (l.map (fun t => Transaction.helpFmt t [';'])) = some (.ok l) := by
  induction l with
  | nil => rfl
  | cons t rest ih =>
    have h1 := h t (List.mem_cons_self _ _)
    have h2 := hm t (List.mem_cons_self _ _)
    have hrt : Transaction.fromStr (replaceChar ';' ':' (Transaction.helpFmt t [';'])) =
        some (.ok t) := by
      rw [replace_helpFmt h1]
      exact transactionRoundTrip h1 h2
    simp only [List.map_cons, collectTxs, hrt,
      ih (fun x hx => h x (List.mem_cons_of_mem _ hx))
        (fun x hx => hm x (List.mem_cons_of_mem _ hx))]

theorem splitChar_blockToStr {b : Block} (hmb : base64Ok b.miner_account = true)
    (htxne : b.transactions ≠ [])
    (hwf : ∀ t ∈ b.transactions, wfTx t = true) :
    splitChar ':' b.toStr =
      natToStr b.serial :: str "block" :: printF64 b.nonce :: b.miner_account ::
        b.transactions.map (fun t => Transaction.helpFmt t [';']) := by
  have hser : ∀ x ∈ natToStr b.serial, x ≠ ':' :=
    fun x hx => digit_ne (natToStr_digit hx) ':' (by decide)
  have hbl : ∀ x ∈ str "block", x ≠ ':' := by decide
  have hn : ∀ x ∈ printF64 b.nonce, x ≠ ':' := fun x hx => (printF64_no_delim hx).1
  have hmb' : ∀ x ∈ b.miner_account, x ≠ ':' :=
    fun x hx => b64_ne_of_mem hmb hx ':' (by decide)
  have hpne : b.transactions.map (fun t => Transaction.helpFmt t [';']) ≠ [] :=
    fun hh => htxne (List.map_eq_nil_iff.mp hh)
  have hp : ∀ p ∈ b.transactions.map (fun t => Transaction.helpFmt t [';']),
      ∀ x ∈ p, x ≠ ':' := by
    intro p hp x hx
    obtain ⟨t, ht, rfl⟩ := List.mem_map.mp hp
    exact helpFmt_semi_no_colon (hwf t ht) hx
  have hsb : str ":block:" = ':' :: (str "block" ++ [':']) := rfl
  simp only [Block.toStr, hsb, List.append_assoc, List.cons_append, List.singleton_append,
    List.nil_append]
  rw [splitChar_first _ hser, splitChar_first _ hbl, splitChar_first _ hn,
    splitChar_first _ hmb', splitChar_sepConcat _ hpne hp]

theorem blockRoundTrip {b : Block} (hser : b.serial < 2^64) (hnon : wfF64 b.nonce = true)
    (hmb : base64Ok b.miner_account = true) (hmblen : b.miner_account.length = 116)
    (htx2 : 2 ≤ b.transactions.length)
    (hwf : ∀ t ∈ b.transactions, wfTx t = true)
    (hmv : ∀ t ∈ b.transactions, t.moves ≠ []) :
    Block.fromStr b.toStr = some (.ok b) := by
  have htxne : b.transactions ≠ [] := by
    intro hh
    rw [hh] at htx2
    simp at htx2
  have hsplit := splitChar_blockToStr hmb htxne hwf
  have hlen6 : ¬ ((natToStr b.serial :: str "block" :: printF64 b.nonce ::
      b.miner_account :: b.transactions.map (fun t => Transaction.helpFmt t [';'])).length
        < 6) := by
    simp only [List.length_cons, List.length_map]
    omega
  have hge4 : 4 ≤ (natToStr b.serial :: str "block" :: printF64 b.nonce ::
      b.miner_account ::
      b.transactions.map (fun t => Transaction.helpFmt t [';'])).length := by
    simp [List.length_cons]
  have htag : ¬ (str "block" ≠ str "block") := fun hc => hc rfl
  have hmblen' : ¬ (b.miner_account.length ≠ 116) := fun hc => hc hmblen
  have hdrop : (natToStr b.serial :: str "block" :: printF64 b.nonce ::
      b.miner_account :: b.transactions.map (fun t => Transaction.helpFmt t [';'])).drop 4 =
      b.transactions.map (fun t => Transaction.helpFmt t [';']) := rfl
  simp only [Block.fromStr, hsplit, if_neg hlen6, List.get?_cons_zero, List.get?_cons_succ,
    parseU64_natToStr hser, if_neg htag, parseF64_printF64 hnon, if_pos hmb,
    if_neg hmblen', if_pos hge4, hdrop, collectTxs_map hwf hmv]

/-! ### No decoder ever reaches a panic (`none`) -/

theorem moveFromStr_isSome (s : Str) : (Move.fromStr s).isSome = true := by
  unfold Move.fromStr
  by_cases hlen : (splitChar ',' s).length ≠ 2
  · rw [if_pos hlen]; rfl
  · rw [if_neg hlen]
    push_neg at hlen
    obtain ⟨f, hf⟩ : ∃ f, (splitChar ',' s).get? 0 = some f := by
      cases hc : (splitChar ',' s).get? 0
      · rw [List.get?_eq_none] at hc; omega
      · exact ⟨_, rfl⟩
    obtain ⟨a, ha⟩ : ∃ a, (splitChar ',' s).get? 1 = some a := by
      cases hc : (splitChar ',' s).get? 1
      · rw [List.get?_eq_none] at hc; omega
      · exact ⟨_, rfl⟩
    simp only [hf, ha]
    by_cases hb : base64Ok f
    · rw [if_pos hb]
      by_cases hl : f.length ≠ 116
      · rw [if_pos hl]; rfl
      · rw [if_neg hl]
        cases parseF64 a with
        | none => rfl
        | some v =>
          by_cases h1 : leF64 v (.finite 0 0)
          · simp only [if_pos h1]; rfl
          · simp only [if_neg h1]
            by_cases h2 : v = .inf false
            · simp only [if_pos h2]; rfl
            · simp only [if_neg h2]; rfl
    · rw [if_neg hb]; rfl

theorem collectMoves_isSome (l : List Str) : (collectMoves l).isSome = true := by
  induction l with
  | nil => rfl
  | cons x xs ih =>
    simp only [collectMoves]
    cases hc : Move.fromStr x with
    | none =>
      have hthis := moveFromStr_isSome x
      rw [hc] at hthis
      exact hthis
    | some r =>
      cases r with
      | error e => rfl
      | ok m =>
        cases hc2 : collectMoves xs with
        | none => rw [hc2] at ih; exact ih
        | some r2 => cases r2 <;> rfl

theorem transactionFromStr_isSome (s : Str) : (Transaction.fromStr s).isSome = true := by
  unfold Transaction.fromStr
  by_cases hlen : (splitChar ':' s).length < 5
  · rw [if_pos hlen]; rfl
  · rw [if_neg hlen]
    push_neg at hlen
    have hget : ∀ i, i < 5 → ∃ p, (splitChar ':' s).get? i = some p := by
      intro i hi
      cases hc : (splitChar ':' s).get? i
      · rw [List.get?_eq_none] at hc; omega
      · exact ⟨_, rfl⟩
    obtain ⟨p0, h0⟩ := hget 0 (by omega)
    obtain ⟨p1, h1⟩ := hget 1 (by omega)
    obtain ⟨p2, h2⟩ := hget 2 (by omega)
    obtain ⟨p3, h3⟩ := hget 3 (by omega)
    obtain ⟨p4, h4⟩ := hget 4 (by omega)
    simp only [h0, h1, h2, h3, h4]
    cases parseU64 p0 with
    | none => rfl
    | some serial =>
      by_cases ht : p1 ≠ str "transaction"
      · simp only [if_pos ht]; rfl
      · simp only [if_neg ht]
        by_cases hb2 : base64Ok p2
        · simp only [if_pos hb2]
          by_cases he2 : p2 = []
          · simp only [if_pos he2]; rfl
          · simp only [if_neg he2]
            by_cases hb3 : base64Ok p3
            · simp only [if_pos hb3]
              by_cases hl3 : p3.length ≠ 88
              · simp only [if_pos hl3]; rfl
              · simp only [if_neg hl3]
                by_cases hb4 : base64Ok p4
                · simp only [if_pos hb4]
                  by_cases hl4 : p4.length ≠ 116
                  · simp only [if_pos hl4]; rfl
                  · simp only [if_neg hl4]
                    rw [if_pos hlen]
                    cases hcm : collectMoves ((splitChar ':' s).drop 5) with
                    | none =>
                      have hthis := collectMoves_isSome ((splitChar ':' s).drop 5)
                      rw [hcm] at hthis
                      exact hthis
                    | some r => cases r <;> rfl
                · simp only [if_neg hb4]; rfl
            · simp only [if_neg hb3]; rfl
        · simp only [if_neg hb2]; rfl

theorem newTransactionFromStr_isSome (s : Str) :
    (NewTransaction.fromStr s).isSome = true := by
  unfold NewTransaction.fromStr
  by_cases hlen : (splitChar ':' s).length < 4
  · rw [if_pos hlen]; rfl
  · rw [if_neg hlen]
    push_neg at hlen
    have hget : ∀ i, i < 4 → ∃ p, (splitChar ':' s).get? i = some p := by
      intro i hi
      cases hc : (splitChar ':' s).get? i
      · rw [List.get?_eq_none] at hc; omega
      · exact ⟨_, rfl⟩
    obtain ⟨p0, h0⟩ := hget 0 (by omega)
    obtain ⟨p1, h1⟩ := hget 1 (by omega)
    obtain ⟨p2, h2⟩ := hget 2 (by omega)
    obtain ⟨p3, h3⟩ := hget 3 (by omega)
    simp only [h0, h1, h2, h3]
    by_cases ht : p0 ≠ str "transaction"
    · simp only [if_pos ht]; rfl
    · simp only [if_neg ht]
      by_cases hb1 : base64Ok p1
      · simp only [if_pos hb1]
        by_cases he1 : p1 = []
        · simp only [if_pos he1]; rfl
        · simp only [if_neg he1]
          by_cases hb2 : base64Ok p2
          · simp only [if_pos hb2]
            by_cases hl2 : p2.length ≠ 88
            · simp only [if_pos hl2]; rfl
            · simp only [if_neg hl2]
              by_cases hb3 : base64Ok p3
              · simp only [if_pos hb3]
                by_cases hl3 : p3.length ≠ 116
                · simp only [if_pos hl3]; rfl
                · simp only [if_neg hl3]
                  rw [if_pos hlen]
                  cases hcm : collectMoves ((splitChar ':' s).drop 4) with
                  | none =>
                    have hthis := collectMoves_isSome ((splitChar ':' s).drop 4)
                    rw [hcm] at hthis
                    exact hthis
                  | some r => cases r <;> rfl
              · simp only [if_neg hb3]; rfl
          · simp only [if_neg hb2]; rfl
      · simp only [if_neg hb1]; rfl

theorem collectTxs_isSome (l : List Str) : (collectTxs l).isSome = true := by
  induction l with
  | nil => rfl
  | cons x xs ih =>
    simp only [collectTxs]
    cases hc : Transaction.fromStr (replaceChar ';' ':' x) with
    | none =>
      have hthis := transactionFromStr_isSome (replaceChar ';' ':' x)
      rw [hc] at hthis
      exact hthis
    | some r =>
      cases r with
      | error e => rfl
      | ok t =>
        cases hc2 : collectTxs xs with
        | none => rw [hc2] at ih; exact ih
        | some r2 => cases r2 <;> rfl

theorem blockFromStr_isSome (s : Str) : (Block.fromStr s).isSome = true := by
  unfold Block.fromStr
  by_cases hlen : (splitChar ':' s).length < 6
  · rw [if_pos hlen]; rfl
  · rw [if_neg hlen]
    push_neg at hlen
    have hget : ∀ i, i < 4 → ∃ p, (splitChar ':' s).get? i = some p := by
      intro i hi
      cases hc : (splitChar ':' s).get? i
      · rw [List.get?_eq_none] at hc; omega
      · exact ⟨_, rfl⟩
    obtain ⟨p0, h0⟩ := hget 0 (by omega)
    obtain ⟨p1, h1⟩ := hget 1 (by omega)
    obtain ⟨p2, h2⟩ := hget 2 (by omega)
    obtain ⟨p3, h3⟩ := hget 3 (by omega)
    simp only [h0, h1, h2, h3]
    cases parseU64 p0 with
    | none => rfl
    | some serial =>
      by_cases ht : p1 ≠ str "block"
      · simp only [if_pos ht]; rfl
      · simp only [if_neg ht]
        cases parseF64 p2 with
        | none => rfl
        | some nonce =>
          by_cases hb3 : base64Ok p3
          · simp only [if_pos hb3]
            by_cases hl3 : p3.length ≠ 116
            · simp only [if_pos hl3]; rfl
            · simp only [if_neg hl3]
              rw [if_pos (by omega)]
              cases hcm : collectTxs ((splitChar ':' s).drop 4) with
              | none =>
                have hthis := collectTxs_isSome ((splitChar ':' s).drop 4)
                rw [hcm] at hthis
                exact hthis
              | some r => cases r <;> rfl
          · simp only [if_neg hb3]; rfl

theorem newBlockFromStr_isSome (s : Str) : (NewBlock.fromStr s).isSome = true := by
  unfold NewBlock.fromStr
  by_cases hlen : (splitChar ':' s).length < 4
  · rw [if_pos hlen]; rfl
  · rw [if_neg hlen]
    push_neg at hlen
    have hget : ∀ i, i < 3 → ∃ p, (splitChar ':' s).get? i = some p := by
      intro i hi
      cases hc : (splitChar ':' s).get? i
      · rw [List.get?_eq_none] at hc; omega
      · exact ⟨_, rfl⟩
    obtain ⟨p0, h0⟩ := hget 0 (by omega)
    obtain ⟨p1, h1⟩ := hget 1 (by omega)
    obtain ⟨p2, h2⟩ := hget 2 (by omega)
    simp only [h0, h1, h2]
    by_cases ht : p0 ≠ str "block"
    · simp only [if_pos ht]; rfl
    · simp only [if_neg ht]
      cases parseF64 p1 with
      | none => rfl
      | some nonce =>
        by_cases hb2 : base64Ok p2
        · simp only [if_pos hb2]
          by_cases hl2 : p2.length ≠ 116
          · simp only [if_pos hl2]; rfl
          · simp only [if_neg hl2]
            rw [if_pos (by omega)]
            cases hcm : collectTxs ((splitChar ':' s).drop 3) with
            | none =>
              have hthis := collectTxs_isSome ((splitChar ':' s).drop 3)
              rw [hcm] at hthis
              exact hthis
            | some r => cases r <;> rfl
        · simp only [if_neg hb2]; rfl

theorem messageFromStr_isSome (s : Str) : (Message.fromStr s).isSome = true := by
  unfold Message.fromStr
  by_cases hlen : (splitChar ':' s).length < 2
  · rw [if_pos hlen]; rfl
  · rw [if_neg hlen]
    push_neg at hlen
    obtain ⟨p1, h1⟩ : ∃ p, (splitChar ':' s).get? 1 = some p := by
      cases hc : (splitChar ':' s).get? 1
      · rw [List.get?_eq_none] at hc; omega
      · exact ⟨_, rfl⟩
    simp only [h1]
    by_cases hb : p1 = str "block"
    · simp only [if_pos hb]
      cases hc : Block.fromStr s with
      | none =>
        have hthis := blockFromStr_isSome s
        rw [hc] at hthis
        exact hthis
      | some r => cases r <;> rfl
    · simp only [if_neg hb]
      by_cases htx : p1 = str "transaction"
      · simp only [if_pos htx]
        cases hc : Transaction.fromStr s with
        | none =>
          have hthis := transactionFromStr_isSome s
          rw [hc] at hthis
          exact hthis
        | some r => cases r <;> rfl
      · simp only [if_neg htx]; rfl

theorem newMessageFromStr_isSome (s : Str) : (NewMessage.fromStr s).isSome = true := by
  unfold NewMessage.fromStr
  by_cases hlen : (splitChar ':' s).length < 2
  · rw [if_pos hlen]; rfl
  · rw [if_neg hlen]
    push_neg at hlen
    obtain ⟨p0, h0⟩ : ∃ p, (splitChar ':' s).get? 0 = some p := by
      cases hc : (splitChar ':' s).get? 0
      · rw [List.get?_eq_none] at hc; omega
      · exact ⟨_, rfl⟩
    simp only [h0]
    by_cases hb : p0 = str "block"
    · simp only [if_pos hb]
      cases hc : NewBlock.fromStr s with
      | none =>
        have hthis := newBlockFromStr_isSome s
        rw [hc] at hthis
        exact hthis
      | some r => cases r <;> rfl
    · simp only [if_neg hb]
      by_cases htx : p0 = str "transaction"
      · simp only [if_pos htx]
        cases hc : NewTransaction.fromStr s with
        | none =>
          have hthis := newTransactionFromStr_isSome s
          rw [hc] at hthis
          exact hthis
        | some r => cases r <;> rfl
      · simp only [if_neg htx]; rfl

/-! ### Concrete values used by the claims -/

/-- 116 `A` characters: a valid base64 key of the accepted length. -/
def keyA : Str := List.replicate 116 'A'

/-- 115 `A` characters: valid base64, one character short of the accepted length. -/
def keyA115 : Str := List.replicate 115 'A'

/-- 88 `A` characters: a valid base64 signature of the accepted length. -/
def sigA : Str := List.replicate 88 'A'

/-- A transaction whose fields all validate and whose move list is empty. -/
def txNoMoves : Transaction :=
  { serial := 0, unique_string := str "Zm9v", sig := sigA, sender := keyA, moves := [] }

/-- A transaction whose fields all validate, with one move. -/
def txOneMove : Transaction :=
  { serial := 0, unique_string := str "Zm9v", sig := sigA, sender := keyA,
    moves := [{ from_ := keyA, amount := .finite 1 0 }] }

/-- The semicolon-delimited rendering of `txOneMove`, as it appears inside an
encoded block. -/
def txSemiW : Str := Transaction.helpFmt txOneMove [';']

/-- A NewTransaction whose fields all validate and whose move list is empty. -/
def ntxNoMoves : NewTransaction :=
  { unique_string := str "Zm9v", sig := sigA, sender := keyA, moves := [] }

/-- A block with one zero-move transaction and otherwise valid fields: the
instance singled out by the nesting-escape property. -/
def blockOneTx : Block :=
  { serial := 0, transactions := [txNoMoves], nonce := .finite 1 0, miner_account := keyA }

/-- A block with two one-move transactions and valid fields. -/
def blockW : Block :=
  { serial := 7, transactions := [txOneMove, txOneMove], nonce := .finite 1337 0,
    miner_account := keyA }

/-! ### The claims -/

/-- C7: decoding `"transaction:short"` as a NewTransaction fails with the
structural too-few-parts error, never a field error; decoding
`"transaction:not-base64!!:sig:sender"` fails with the field error naming the
unique string, the first field scanned, even though the signature and sender
fields are also invalid (the first failing check determines the error); and
every decode returns either a fully valid record or an error, never a
partial record. -/
theorem c7_error_precedence :
    NewTransaction.fromStr (str "transaction:short") =
      some (.error (str "Transaction has less than four parts")) ∧
    NewTransaction.fromStr (str "transaction:not-base64!!:sig:sender") =
      some (.error (str "Unique string is not base64")) ∧
    ∀ s : Str, (∃ t, NewTransaction.fromStr s = some (.ok t)) ∨
      (∃ e, NewTransaction.fromStr s = some (.error e)) := by
  refine ⟨by decide, by decide, ?_⟩
  intro s
  have h := newTransactionFromStr_isSome s
  cases hc : NewTransaction.fromStr s with
  | none => rw [hc] at h; exact absurd h (by decide)
  | some r =>
    cases r with
    | error e => exact Or.inr ⟨e, rfl⟩
    | ok t => exact Or.inl ⟨t, rfl⟩

/-- C9: no decoder of the codec ever reaches a panic on any input: every
`unwrap` in the source is guarded by the preceding part-count check, so every
decode returns an ordinary result (`some`), never the panic outcome (`none`). -/
theorem c9_no_panic (s : Str) :
    (Move.fromStr s).isSome = true ∧ (Transaction.fromStr s).isSome = true ∧
    (NewTransaction.fromStr s).isSome = true ∧ (Block.fromStr s).isSome = true ∧
    (NewBlock.fromStr s).isSome = true ∧ (Message.fromStr s).isSome = true ∧
    (NewMessage.fromStr s).isSome = true :=
  ⟨moveFromStr_isSome s, transactionFromStr_isSome s, newTransactionFromStr_isSome s,
    blockFromStr_isSome s, newBlockFromStr_isSome s, messageFromStr_isSome s,
    newMessageFromStr_isSome s⟩

/-- C10: the Genesis NewBlock renders as `"block:1337:<account>:"` with a
trailing colon, and decoding that bootstrap entry with the persisted Message
decoder fails, because part 1 of the string is `"1337"`, not a recognised
tag: the entry appended to an empty log cannot be read back through the
persisted decoder. -/
theorem c10_genesis_unreadable :
    migrationEntry = str "block:1337:" ++ NewBlock.genesis.miner_account ++ [':'] ∧
    Message.fromStr migrationEntry =
      some (.error (str "Message is not block or transaction")) := by
  exact ⟨by decide, by decide⟩

/-- C1 counterexample: with a valid 116-character base64 account, the string
`"block:1337:<acct>"` does not decode as a NewMessage (the dispatched NewBlock
decoder requires at least 4 colon-separated parts and sees 3), and
`"0:block:1337:<acct>"` does not decode as a Message (the dispatched Block
decoder requires at least 6 parts and sees 4) — both claimed successes fail. -/
theorem c1_counterexample :
    NewMessage.fromStr (str "block:1337:" ++ keyA) =
      some (.error (str "Block has less than five parts")) ∧
    Message.fromStr (str "0:block:1337:" ++ keyA) =
      some (.error (str "Block has less than six parts")) := by
  exact ⟨by decide, by decide⟩

/-- C1 (amended): for every valid 116-character base64 account, the tag of
`"block:1337:<acct>"` is read by NewMessage at part 0 and dispatches to the
NewBlock decoder, which then fails its minimum-part-count check; the tag of
`"0:block:1337:<acct>"` is read by Message at part 1 and dispatches to the
Block decoder, which fails its six-part minimum; and decoding each string
with the other union's decoder fails at the tag itself. -/
theorem c1_tag_position_asymmetry (acct : Str) (hb : base64Ok acct = true)
    (hlen : acct.length = 116) :
    NewMessage.fromStr (str "block:1337:" ++ acct) =
      some (.error (str "Block has less than five parts")) ∧
    Message.fromStr (str "0:block:1337:" ++ acct) =
      some (.error (str "Block has less than six parts")) ∧
    Message.fromStr (str "block:1337:" ++ acct) =
      some (.error (str "Message is not block or transaction")) ∧
    NewMessage.fromStr (str "0:block:1337:" ++ acct) =
      some (.error (str "Message is not block or transaction")) := by
  have hacct : ∀ x ∈ acct, x ≠ ':' := fun x hx => b64_ne_of_mem hb hx ':' (by decide)
  have hbl : ∀ x ∈ str "block", x ≠ ':' := by decide
  have h1337 : ∀ x ∈ str "1337", x ≠ ':' := by decide
  have h0s : ∀ x ∈ str "0", x ≠ ':' := by decide
  have hsh1 : str "block:1337:" ++ acct =
      str "block" ++ ':' :: (str "1337" ++ ':' :: acct) := rfl
  have hsplit1 : splitChar ':' (str "block:1337:" ++ acct) =
      [str "block", str "1337", acct] := by
    rw [hsh1, splitChar_first _ hbl, splitChar_first _ h1337, splitChar_single hacct]
  have hsh2 : str "0:block:1337:" ++ acct =
      str "0" ++ ':' :: (str "block" ++ ':' :: (str "1337" ++ ':' :: acct)) := rfl
  have hsplit2 : splitChar ':' (str "0:block:1337:" ++ acct) =
      [str "0", str "block", str "1337", acct] := by
    rw [hsh2, splitChar_first _ h0s, splitChar_first _ hbl, splitChar_first _ h1337,
      splitChar_single hacct]
  refine ⟨?_, ?_, ?_, ?_⟩
  · simp only [NewMessage.fromStr, NewBlock.fromStr, hsplit1, List.length_cons,
      List.length_nil, List.get?_cons_zero]
    norm_num
  · simp only [Message.fromStr, Block.fromStr, hsplit2, List.length_cons, List.length_nil,
      List.get?_cons_zero, List.get?_cons_succ]
    norm_num
  · simp only [Message.fromStr, hsplit1, List.length_cons, List.length_nil,
      List.get?_cons_zero, List.get?_cons_succ]
    rw [if_neg (by norm_num)]
    rw [if_neg (show ¬ str "1337" = str "block" by decide)]
    rw [if_neg (show ¬ str "1337" = str "transaction" by decide)]
  · simp only [NewMessage.fromStr, hsplit2, List.length_cons, List.length_nil,
      List.get?_cons_zero]
    rw [if_neg (by norm_num)]
    rw [if_neg (show ¬ str "0" = str "block" by decide)]
    rw [if_neg (show ¬ str "0" = str "transaction" by decide)]

/-- C1 witness: the amended statement at the concrete all-`A` account. -/
theorem c1_tag_position_asymmetry_witness :
    NewMessage.fromStr (str "block:1337:" ++ keyA) =
      some (.error (str "Block has less than five parts")) ∧
    Message.fromStr (str "0:block:1337:" ++ keyA) =
      some (.error (str "Block has less than six parts")) ∧
    Message.fromStr (str "block:1337:" ++ keyA) =
      some (.error (str "Message is not block or transaction")) ∧
    NewMessage.fromStr (str "0:block:1337:" ++ keyA) =
      some (.error (str "Message is not block or transaction")) :=
  c1_tag_position_asymmetry keyA (by decide) (by decide)

/-- C2 counterexample: a Transaction and a NewTransaction with an empty move
sequence encode to strings that end with a colon, contradicting the claim
that the encoding carries no trailing delimiter. -/
theorem c2_counterexample :
    txNoMoves.moves = [] ∧ (Transaction.toStr txNoMoves).getLast? = some ':' ∧
    ntxNoMoves.moves = [] ∧ (NewTransaction.toStr ntxNoMoves).getLast? = some ':' := by
  exact ⟨rfl, by decide, rfl, by decide⟩

/-- C2 (amended): every Transaction and NewTransaction encodes as the header
fields each followed by a colon, then the Move encodings joined by colons
with no delimiter after the last move; consequently, when the move sequence
is empty the encoding ends with the colon written after the sender field. -/
theorem c2_encode_shape (t : Transaction) (nt : NewTransaction) :
    Transaction.toStr t = natToStr t.serial ++ [':'] ++ str "transaction" ++ [':'] ++
        t.unique_string ++ [':'] ++ t.sig ++ [':'] ++ t.sender ++ [':'] ++
        List.intercalate [':'] (t.moves.map Move.toStr) ∧
    NewTransaction.toStr nt = str "transaction" ++ [':'] ++ nt.unique_string ++ [':'] ++
        nt.sig ++ [':'] ++ nt.sender ++ [':'] ++
        List.intercalate [':'] (nt.moves.map Move.toStr) ∧
    (t.moves = [] → (Transaction.toStr t).getLast? = some ':') ∧
    (nt.moves = [] → (NewTransaction.toStr nt).getLast? = some ':') := by
  have h1 : Transaction.toStr t = natToStr t.serial ++ [':'] ++ str "transaction" ++
      [':'] ++ t.unique_string ++ [':'] ++ t.sig ++ [':'] ++ t.sender ++ [':'] ++
      List.intercalate [':'] (t.moves.map Move.toStr) := by
    simp only [Transaction.toStr, Transaction.helpFmt, sepConcat_eq_intercalate]
  have h2 : NewTransaction.toStr nt = str "transaction" ++ [':'] ++ nt.unique_string ++
      [':'] ++ nt.sig ++ [':'] ++ nt.sender ++ [':'] ++
      List.intercalate [':'] (nt.moves.map Move.toStr) := by
    simp only [NewTransaction.toStr, sepConcat_eq_intercalate]
    have : str "transaction:" = str "transaction" ++ [':'] := rfl
    rw [this]
    simp [List.append_assoc]
  refine ⟨h1, h2, ?_, ?_⟩
  · intro hmv
    rw [h1, hmv]
    have hni : ([':'] : Str).intercalate [] = [] := rfl
    simp only [List.map_nil, hni, List.append_nil]
    rw [List.getLast?_concat]
  · intro hmv
    rw [h2, hmv]
    have hni : ([':'] : Str).intercalate [] = [] := rfl
    simp only [List.map_nil, hni, List.append_nil]
    rw [List.getLast?_concat]

/-- C3 counterexample: the Block containing exactly one Transaction with zero
moves (all fields valid) fails to decode after encoding: its encoding has
only five colon-separated parts, so its own decoder rejects it with the
part-count error instead of reproducing the Transaction. -/
theorem c3_counterexample :
    Block.fromStr (Block.toStr blockOneTx) =
      some (.error (str "Block has less than six parts")) := by
  decide

/-- C3 (amended): a Block whose fields validate decodes back from its own
encoding and reproduces every contained Transaction exactly, provided the
block carries at least two transactions and every transaction at least one
move; with one transaction the encoding has five parts and fails the
six-part minimum, and a zero-move transaction re-enters the decoder with a
trailing empty move field and is rejected. -/
theorem c3_block_round_trip (b : Block) (hser : b.serial < 2^64)
    (hnon : wfF64 b.nonce = true) (hmb : base64Ok b.miner_account = true)
    (hmblen : b.miner_account.length = 116) (htx2 : 2 ≤ b.transactions.length)
    (hwf : ∀ t ∈ b.transactions, wfTx t = true)
    (hmv : ∀ t ∈ b.transactions, t.moves ≠ []) :
    Block.fromStr (Block.toStr b) = some (.ok b) :=
  blockRoundTrip hser hnon hmb hmblen htx2 hwf hmv

set_option maxRecDepth 20000 in
/-- C3 witness: the round trip at a concrete two-transaction block. -/
theorem c3_block_round_trip_witness :
    Block.fromStr (Block.toStr blockW) = some (.ok blockW) :=
  c3_block_round_trip blockW (by decide) (by decide) (by decide) (by decide) (by decide)
    (by decide) (by decide)

/-- C4 counterexample: the amount `NaN` parses and passes both guards (it
compares neither `≤ 0` nor equal to infinity), so the decoder accepts a Move
whose amount is NaN, contradicting the claim that every non-finite amount is
rejected. -/
theorem c4_counterexample :
    Move.fromStr (keyA ++ str ",NaN") =
      some (.ok { from_ := keyA, amount := .nan }) := by
  decide

/-- C4 (amended): for a well-formed recipient key, Move decoding is decided
exactly by the amount guards of the source: the decode fails when the amount
does not parse, when it compares `≤ 0` (zero, negatives, negative infinity),
or when it equals positive infinity; any other parsed amount is accepted —
in particular NaN, whose comparisons are all false, is accepted. -/
theorem c4_amount_guard (f amtS : Str) (hb : base64Ok f = true)
    (hlen : f.length = 116) (hc : ∀ x ∈ amtS, x ≠ ',') :
    Move.fromStr (f ++ ',' :: amtS) =
      some (match parseF64 amtS with
        | none => .error (str "Amount is not a number")
        | some a =>
          if leF64 a (.finite 0 0) then .error (str "Amount must be positive")
          else if a = .inf false then .error (str "Amount is too big")
          else .ok { from_ := f, amount := a }) := by
  have hsplit : splitChar ',' (f ++ ',' :: amtS) = [f, amtS] := by
    rw [splitChar_first _ fun x hx => b64_ne_of_mem hb hx ',' (by decide),
      splitChar_single hc]
  simp only [Move.fromStr, hsplit, List.length_cons, List.length_nil]
  rw [if_neg (by norm_num)]
  simp only [List.get?_cons_zero, List.get?_cons_succ, if_pos hb]
  rw [if_neg (show ¬ (List.length f ≠ 116) from fun hcc => hcc hlen)]
  cases parseF64 amtS with
  | none => rfl
  | some a =>
    by_cases h1 : leF64 a (.finite 0 0) = true
    · simp only [if_pos h1]
    · simp only [if_neg h1]
      by_cases h2 : a = F64.inf false
      · simp only [if_pos h2]
      · simp only [if_neg h2]

/-- C4 witness: the guard characterisation at a concrete key and amount. -/
theorem c4_amount_guard_witness :
    Move.fromStr (keyA ++ ',' :: str "1") =
      some (match parseF64 (str "1") with
        | none => .error (str "Amount is not a number")
        | some a =>
          if leF64 a (.finite 0 0) then .error (str "Amount must be positive")
          else if a = .inf false then .error (str "Amount is too big")
          else .ok { from_ := keyA, amount := a }) :=
  c4_amount_guard keyA (str "1") (by decide) (by decide) (by decide)

/-- C5: for every Move whose amount is a finite strictly-positive value of
the float model and whose recipient key is base64 of exactly 116 characters,
decoding the encoded Move succeeds and reproduces the Move exactly. -/
theorem c5_move_round_trip (mv : Move) (hb : base64Ok mv.from_ = true)
    (hlen : mv.from_.length = 116) (hpos : posFinF64 mv.amount = true)
    (hwf : wfF64 mv.amount = true) :
    Move.fromStr (Move.toStr mv) = some (.ok mv) :=
  moveRoundTrip hb hlen hpos hwf

set_option maxRecDepth 20000 in
/-- C5 witness: the round trip at the amount `1.5`. -/
theorem c5_move_round_trip_witness :
    Move.fromStr (Move.toStr { from_ := keyA, amount := .finite 3 (-1) }) =
      some (.ok { from_ := keyA, amount := .finite 3 (-1) }) :=
  c5_move_round_trip { from_ := keyA, amount := .finite 3 (-1) } (by decide) (by decide)
    (by decide) (by decide)

set_option maxRecDepth 20000 in
/-- C6: encoding a Move whose amount is positive infinity substitutes the
largest finite value before rendering, so decoding the result succeeds and
yields the same key with amount `f64::MAX`, which is not infinity: the
round trip is lossy exactly at this boundary. -/
theorem c6_infinity_lossy (f : Str) (hb : base64Ok f = true)
    (hlen : f.length = 116) :
    Move.fromStr (Move.toStr { from_ := f, amount := .inf false }) =
      some (.ok { from_ := f, amount := f64MAX }) ∧ f64MAX ≠ .inf false := by
  constructor
  · have h1 := @moveRoundTrip { from_ := f, amount := f64MAX } hb hlen
      (by show posFinF64 f64MAX = true; decide) (by show wfF64 f64MAX = true; decide)
    have henc : Move.toStr { from_ := f, amount := .inf false } =
        Move.toStr { from_ := f, amount := f64MAX } := by
      simp only [Move.toStr, eq_self_iff_true, ite_true, ite_self]
    rw [henc]
    exact h1
  · decide

set_option maxRecDepth 20000 in
/-- C6 witness: the lossy round trip at the concrete all-`A` key. -/
theorem c6_infinity_lossy_witness :
    Move.fromStr (Move.toStr { from_ := keyA, amount := .inf false }) =
      some (.ok { from_ := keyA, amount := f64MAX }) ∧ f64MAX ≠ .inf false :=
  c6_infinity_lossy keyA (by decide) (by decide)

set_option maxRecDepth 20000 in
/-- C8: a key value that is valid base64 but has encoded length 115 or 117 is
rejected by the Move decoder (`from`), the Transaction decoder (`sender`) and
the Block decoder (`miner_account`) with the corresponding invalid-key field
error, while a valid base64 value of exactly 116 characters passes each of
those checks and the surrounding decode succeeds. -/
theorem c8_key_length_boundary (v w : Str) (hv : base64Ok v = true)
    (hvlen : v.length = 115 ∨ v.length = 117) (hw : base64Ok w = true)
    (hwlen : w.length = 116) :
    Move.fromStr (v ++ str ",1") =
      some (.error (str "Recipient public key (" ++ v ++ str ") is an invalid key")) ∧
    Transaction.fromStr (str "0:transaction:Zm9v:" ++ sigA ++ ':' :: v) =
      some (.error (str "Sender public key (" ++ v ++ str ") is an invalid key")) ∧
    Block.fromStr (str "0:block:1:" ++ v ++ str "::") =
      some (.error (str "Miner account is an invalid key")) ∧
    Move.fromStr (w ++ str ",1") =
      some (.ok { from_ := w, amount := .finite 1 0 }) ∧
    Transaction.fromStr
        (str "0:transaction:Zm9v:" ++ sigA ++ ':' :: w ++ ':' :: w ++ str ",1") =
      some (.ok { serial := 0, unique_string := str "Zm9v", sig := sigA, sender := w,
                  moves := [{ from_ := w, amount := .finite 1 0 }] }) ∧
    Block.fromStr (str "0:block:1:" ++ w ++ ':' :: txSemiW ++ ':' :: txSemiW) =
      some (.ok { serial := 0, transactions := [txOneMove, txOneMove],
                  nonce := .finite 1 0, miner_account := w }) := by
  have hvne : v.length ≠ 116 := by rcases hvlen with h | h <;> omega
  have hvc : ∀ x ∈ v, x ≠ ':' := fun x hx => b64_ne_of_mem hv hx ':' (by decide)
  have hvcm : ∀ x ∈ v, x ≠ ',' := fun x hx => b64_ne_of_mem hv hx ',' (by decide)
  have hwc : ∀ x ∈ w, x ≠ ':' := fun x hx => b64_ne_of_mem hw hx ':' (by decide)
  have hwcm : ∀ x ∈ w, x ≠ ',' := fun x hx => b64_ne_of_mem hw hx ',' (by decide)
  have hwlen' : ¬ (w.length ≠ 116) := fun hc => hc hwlen
  have hp1 : parseF64 (str "1") = some (.finite 1 0) := by decide
  have hle1 : leF64 (.finite 1 0) (.finite 0 0) = false := by decide
  have hinf1 : ¬ ((.finite 1 0 : F64) = .inf false) := by decide
  have hmw : Move.fromStr (w ++ ',' :: str "1") =
      some (.ok { from_ := w, amount := .finite 1 0 }) := by
    have hsplit : splitChar ',' (w ++ ',' :: str "1") = [w, str "1"] := by
      rw [splitChar_first _ hwcm, splitChar_single (by decide)]
    simp only [Move.fromStr, hsplit, List.length_cons, List.length_nil]
    rw [if_neg (by norm_num)]
    simp only [List.get?_cons_zero, List.get?_cons_succ, if_pos hw, hp1, hle1,
      Bool.false_eq_true, if_false]
    rw [if_neg hwlen', if_neg hinf1]
  refine ⟨?_, ?_, ?_, ?_, ?_, ?_⟩
  · have hs : v ++ str ",1" = v ++ ',' :: str "1" := rfl
    have hsplit : splitChar ',' (v ++ ',' :: str "1") = [v, str "1"] := by
      rw [splitChar_first _ hvcm, splitChar_single (by decide)]
    rw [hs]
    simp only [Move.fromStr, hsplit, List.length_cons, List.length_nil]
    rw [if_neg (by norm_num)]
    simp only [List.get?_cons_zero, if_pos hv]
    rw [if_pos hvne]
  · have hs : str "0:transaction:Zm9v:" ++ sigA ++ ':' :: v =
        str "0" ++ ':' :: (str "transaction" ++ ':' :: (str "Zm9v" ++ ':' ::
          (sigA ++ ':' :: v))) := by
      simp only [List.append_assoc, List.cons_append]
      rfl
    have hsplit : splitChar ':' (str "0:transaction:Zm9v:" ++ sigA ++ ':' :: v) =
        [str "0", str "transaction", str "Zm9v", sigA, v] := by
      rw [hs, splitChar_first _ (by decide), splitChar_first _ (by decide),
        splitChar_first _ (by decide), splitChar_first _ (by decide),
        splitChar_single hvc]
    have hlen5 : ¬ (([str "0", str "transaction", str "Zm9v", sigA, v]).length < 5) := by
      simp [List.length_cons]
    simp only [Transaction.fromStr, hsplit, if_neg hlen5, List.get?_cons_zero,
      List.get?_cons_succ,
      show parseU64 (str "0") = some 0 from by decide,
      if_neg (show ¬ str "transaction" ≠ str "transaction" from fun hc => hc rfl),
      if_pos (show base64Ok (str "Zm9v") = true from by decide),
      if_neg (show ¬ (str "Zm9v" = ([] : Str)) from by decide),
      if_pos (show base64Ok sigA = true from by decide),
      if_neg (show ¬ (sigA.length ≠ 88) from by decide),
      if_pos hv]
    rw [if_pos hvne]
  · have hs : str "0:block:1:" ++ v ++ str "::" =
        str "0" ++ ':' :: (str "block" ++ ':' :: (str "1" ++ ':' ::
          (v ++ ':' :: [':']))) := by
      simp only [List.append_assoc, List.cons_append]
      rfl
    have hsplit : splitChar ':' (str "0:block:1:" ++ v ++ str "::") =
        [str "0", str "block", str "1", v, [], []] := by
      rw [hs, splitChar_first _ (by decide), splitChar_first _ (by decide),
        splitChar_first _ (by decide), splitChar_first _ hvc,
        show splitChar ':' [':'] = [[], []] from by decide]
    have hlen6 : ¬ (([str "0", str "block", str "1", v, [], []] : List Str).length < 6) := by
      simp [List.length_cons]
    simp only [Block.fromStr, hsplit, if_neg hlen6, List.get?_cons_zero,
      List.get?_cons_succ,
      show parseU64 (str "0") = some 0 from by decide,
      if_neg (show ¬ str "block" ≠ str "block" from fun hc => hc rfl),
      show parseF64 (str "1") = some (.finite 1 0) from by decide,
      if_pos hv]
    rw [if_pos hvne]
  · have hs : w ++ str ",1" = w ++ ',' :: str "1" := rfl
    rw [hs]
    exact hmw
  · have hs : str "0:transaction:Zm9v:" ++ sigA ++ ':' :: w ++ ':' :: w ++ str ",1" =
        str "0" ++ ':' :: (str "transaction" ++ ':' :: (str "Zm9v" ++ ':' ::
          (sigA ++ ':' :: (w ++ ':' :: (w ++ ',' :: str "1"))))) := by
      simp only [List.append_assoc, List.cons_append]
      rfl
    have hlast : ∀ x ∈ w ++ ',' :: str "1", x ≠ ':' := by
      intro x hx
      rcases List.mem_append.mp hx with hx | hx
      · exact hwc x hx
      · rcases List.mem_cons.mp hx with hx | hx
        · rw [hx]; decide
        · have hone : ∀ y ∈ str "1", y ≠ ':' := by decide
          exact hone x hx
    have hsplit : splitChar ':'
        (str "0:transaction:Zm9v:" ++ sigA ++ ':' :: w ++ ':' :: w ++ str ",1") =
        [str "0", str "transaction", str "Zm9v", sigA, w, w ++ ',' :: str "1"] := by
      rw [hs, splitChar_first _ (by decide), splitChar_first _ (by decide),
        splitChar_first _ (by decide), splitChar_first _ (by decide),
        splitChar_first _ hwc, splitChar_single hlast]
    have hlen5 : ¬ (([str "0", str "transaction", str "Zm9v", sigA, w,
        w ++ ',' :: str "1"]).length < 5) := by
      simp [List.length_cons]
    have hge5 : 5 ≤ ([str "0", str "transaction", str "Zm9v", sigA, w,
        w ++ ',' :: str "1"]).length := by
      simp [List.length_cons]
    have hdrop : ([str "0", str "transaction", str "Zm9v", sigA, w,
        w ++ ',' :: str "1"]).drop 5 = [w ++ ',' :: str "1"] := rfl
    simp only [Transaction.fromStr, hsplit, if_neg hlen5, List.get?_cons_zero,
      List.get?_cons_succ,
      show parseU64 (str "0") = some 0 from by decide,
      if_neg (show ¬ str "transaction" ≠ str "transaction" from fun hc => hc rfl),
      if_pos (show base64Ok (str "Zm9v") = true from by decide),
      if_neg (show ¬ (str "Zm9v" = ([] : Str)) from by decide),
      if_pos (show base64Ok sigA = true from by decide),
      if_neg (show ¬ (sigA.length ≠ 88) from by decide),
      if_pos hw, if_pos hge5, hdrop]
    rw [if_neg hwlen']
    simp only [collectMoves, hmw]
  · have hs : str "0:block:1:" ++ w ++ ':' :: txSemiW ++ ':' :: txSemiW =
        str "0" ++ ':' :: (str "block" ++ ':' :: (str "1" ++ ':' ::
          (w ++ ':' :: (txSemiW ++ ':' :: txSemiW)))) := by
      simp only [List.append_assoc, List.cons_append]
      rfl
    have htsw : ∀ x ∈ txSemiW, x ≠ ':' := by decide
    have hsplit : splitChar ':'
        (str "0:block:1:" ++ w ++ ':' :: txSemiW ++ ':' :: txSemiW) =
        [str "0", str "block", str "1", w, txSemiW, txSemiW] := by
      rw [hs, splitChar_first _ (by decide), splitChar_first _ (by decide),
        splitChar_first _ (by decide), splitChar_first _ hwc,
        splitChar_first _ htsw, splitChar_single htsw]
    have hlen6 : ¬ (([str "0", str "block", str "1", w, txSemiW,
        txSemiW]).length < 6) := by
      simp [List.length_cons]
    have hge4 : 4 ≤ ([str "0", str "block", str "1", w, txSemiW,
        txSemiW]).length := by
      simp [List.length_cons]
    have hdrop : ([str "0", str "block", str "1", w, txSemiW, txSemiW]).drop 4 =
        [txSemiW, txSemiW] := rfl
    have hctx : collectTxs [txSemiW, txSemiW] = some (.ok [txOneMove, txOneMove]) := by
      decide
    simp only [Block.fromStr, hsplit, if_neg hlen6, List.get?_cons_zero,
      List.get?_cons_succ,
      show parseU64 (str "0") = some 0 from by decide,
      if_neg (show ¬ str "block" ≠ str "block" from fun hc => hc rfl),
      show parseF64 (str "1") = some (.finite 1 0) from by decide,
      if_pos hw, if_pos hge4, hdrop, hctx]
    rw [if_neg hwlen']

set_option maxRecDepth 20000 in
/-- C8 witness: the boundary at concrete 115- and 116-character all-`A`
values. -/
theorem c8_key_length_boundary_witness :
    Move.fromStr (keyA115 ++ str ",1") =
      some (.error (str "Recipient public key (" ++ keyA115 ++
        str ") is an invalid key")) ∧
    Transaction.fromStr (str "0:transaction:Zm9v:" ++ sigA ++ ':' :: keyA115) =
      some (.error (str "Sender public key (" ++ keyA115 ++
        str ") is an invalid key")) ∧
    Block.fromStr (str "0:block:1:" ++ keyA115 ++ str "::") =
      some (.error (str "Miner account is an invalid key")) ∧
    Move.fromStr (keyA ++ str ",1") =
      some (.ok { from_ := keyA, amount := .finite 1 0 }) ∧
    Transaction.fromStr
        (str "0:transaction:Zm9v:" ++ sigA ++ ':' :: keyA ++ ':' :: keyA ++ str ",1") =
      some (.ok { serial := 0, unique_string := str "Zm9v", sig := sigA, sender := keyA,
                  moves := [{ from_ := keyA, amount := .finite 1 0 }] }) ∧
    Block.fromStr (str "0:block:1:" ++ keyA ++ ':' :: txSemiW ++ ':' :: txSemiW) =
      some (.ok { serial := 0, transactions := [txOneMove, txOneMove],
                  nonce := .finite 1 0, miner_account := keyA }) :=
  c8_key_length_boundary keyA115 keyA (by decide) (Or.inl (by decide)) (by decide)
    (by decide)

end RChain
